import Mathlib

/-
  Verification of the line-range file editor (replace_lines) of the
  mcp-python tool server.  The editor is embedded shallowly: file content is
  a list of characters, the line buffer is a list of lines, and the
  surrounding storage is an explicit state record.  The unified-diff
  renderer (difflib in the original) is an external collaborator and is
  modelled from the specification's description of it; everything else is
  translated directly from the source of replace_lines.
-/

namespace Mcp

/-- Split a character list at every occurrence of the character ch,
mirroring the Python str.split method: the separators are dropped and the
result is always nonempty (the empty string yields one empty piece). -/
def splitOnCh (ch : Char) : List Char → List (List Char)
  | [] => [[]]
  | c :: cs =>
    if c = ch then [] :: splitOnCh ch cs
    else
      match splitOnCh ch cs with
      | [] => [[c]]
      | l :: ls => (c :: l) :: ls

/-- Python readlines: split the content into lines, each keeping its
trailing terminator; a final fragment without terminator is kept bare, and
the empty content yields no lines. -/
def readlines : List Char → List (List Char)
  | [] => []
  | c :: cs =>
    if c = '\n' then ['\n'] :: readlines cs
    else
      match readlines cs with
      | [] => [[c]]
      | l :: ls => (c :: l) :: ls

/-- Append a newline character to every piece except the last one,
mirroring the list comprehension on line 642 of server.py. -/
def addNLexceptLast : List (List Char) → List (List Char)
  | [] => []
  | [l] => [l]
  | l :: ls => (l ++ ['\n']) :: addNLexceptLast ls

/-- Append a newline character to the last piece, mirroring the
augmented assignment on line 644 of server.py. -/
def appendNLlast : List (List Char) → List (List Char)
  | [] => []
  | [l] => [l ++ ['\n']]
  | l :: ls => l :: appendNLlast ls

/-- Whether the text ends with a line terminator (Python endswith). -/
def endsNL (s : List Char) : Bool := s.getLast? = some '\n'

/-- The new_lines computation of server.py lines 641-644: split the new
content on newline characters, give every piece but the last a terminator,
and give the last piece one as well when the content ends with one. -/
def newLines (t : List Char) : List (List Char) :=
  let parts := addNLexceptLast (splitOnCh '\n' t)
  if endsNL t then appendNLlast parts else parts

/-- Python slice assignment xs[i:j] = repl for 0 ≤ i ≤ j. -/
def splice (orig : List (List Char)) (i j : Nat) (repl : List (List Char)) :
    List (List Char) :=
  orig.take i ++ repl ++ orig.drop j

/-- The modified line buffer of server.py lines 640-665: insert the new
lines at start (end absent) or replace the inclusive range start..end with
them (end present).  Indices are the code's 0-based conversions. -/
def editedLines (orig : List (List Char)) (s : Int) (nc : List Char)
    (e : Option Int) : List (List Char) :=
  let nl := newLines nc
  let i := (s - 1).toNat
  match e with
  | none => splice orig i i nl
  | some ee => splice orig i ee.toNat nl

/-- Decimal digits of a number, little endian, with explicit fuel so that
the definition is structurally recursive. -/
def natDigits : Nat → Nat → List Nat
  | 0, _ => []
  | _ + 1, 0 => []
  | f + 1, n + 1 => ((n + 1) % 10) :: natDigits f ((n + 1) / 10)

/-- Decimal rendering of a natural number. -/
def natDecRepr (n : Nat) : List Char :=
  if n = 0 then ['0'] else ((natDigits n n).reverse).map Nat.digitChar

/-- Decimal parsing of a digit string. -/
def decParse (cs : List Char) : Nat :=
  cs.foldl (fun acc c => acc * 10 + (c.toNat - Char.toNat '0')) 0

/-- Modelled from the spec: the range field of a unified-diff hunk header
as the diff renderer collaborator produces it (difflib format: a 0-based
start and a length are shown 1-based, a length of one is elided, and an
empty range keeps the 0-based position). -/
def formatRange (s0 len : Nat) : List Char :=
  if len = 1 then natDecRepr (s0 + 1)
  else if len = 0 then natDecRepr s0 ++ ',' :: natDecRepr 0
  else natDecRepr (s0 + 1) ++ ',' :: natDecRepr len

/-- Modelled from the spec: a unified-diff hunk header line. -/
def mkHunkHdr (s0 alen blen : Nat) : List Char :=
  '@' :: '@' :: ' ' :: '-' ::
    (formatRange s0 alen ++ ' ' :: '+' ::
      (formatRange s0 blen ++ [' ', '@', '@']))

/-- Modelled from the spec: the body of a unified-diff hunk, context lines
prefixed by a space, removed lines by a minus, added lines by a plus. -/
def hunkBody (cpre da db cpost : List (List Char)) : List (List Char) :=
  cpre.map (fun l => ' ' :: l) ++ da.map (fun l => '-' :: l)
    ++ db.map (fun l => '+' :: l) ++ cpost.map (fun l => ' ' :: l)

/-- Longest common prefix of two line sequences. -/
def comPre : List (List Char) → List (List Char) → List (List Char)
  | a :: as, b :: bs => if a = b then a :: comPre as bs else []
  | _, _ => []

/-- Common suffix of the two sequences once their common prefix is
removed. -/
def diffQ (a b : List (List Char)) : List (List Char) :=
  (comPre ((a.drop (comPre a b).length).reverse)
    ((b.drop (comPre a b).length).reverse)).reverse

/-- The changed middle of the first sequence: what is left of it after the
common prefix and common suffix are removed. -/
def diffMidA (a b : List (List Char)) : List (List Char) :=
  (a.drop (comPre a b).length).take
    ((a.drop (comPre a b).length).length - (diffQ a b).length)

/-- The changed middle of the second sequence. -/
def diffMidB (a b : List (List Char)) : List (List Char) :=
  (b.drop (comPre a b).length).take
    ((b.drop (comPre a b).length).length - (diffQ a b).length)

/-- Modelled from the spec: the diff renderer collaborator (difflib
unified_diff in the source, external to the repository).  It produces the
standard unified-diff lines: two filename headers, then one hunk with up to
three lines of context around the changed region; equal sequences produce
no lines at all. -/
def unifiedDiff (a b : List (List Char)) (lblA lblB : List Char) :
    List (List Char) :=
  if a = b then []
  else
    let p := comPre a b
    let q := diffQ a b
    let da := diffMidA a b
    let db := diffMidB a b
    let m := min 3 p.length
    ('-' :: '-' :: '-' :: ' ' :: lblA) ::
      ('+' :: '+' :: '+' :: ' ' :: lblB) ::
        mkHunkHdr (p.length - m) (m + da.length + (q.take 3).length)
            (m + db.length + (q.take 3).length) ::
          hunkBody (p.drop (p.length - m)) da db (q.take 3)

/-- Invariant of every buffer line: at most one newline character, and
only at the very end. -/
def LineInv (l : List Char) : Prop :=
  (∃ t, l = t ++ ['\n'] ∧ '\n' ∉ t) ∨ '\n' ∉ l

/-- Join pieces with a separating character (Python str.join). -/
def joinSep (ch : Char) : List (List Char) → List Char
  | [] => []
  | [l] => l
  | l :: ls => l ++ ch :: joinSep ch ls

/-- Join diff lines with newline separators, as on line 678 of server.py. -/
def joinNL : List (List Char) → List Char := joinSep '\n'

/-- The literal text reported when the diff is empty (line 680). -/
def noChangesMsg : List Char := "No changes detected".toList

/-- Storage collaborator: file contents by path, plus whether reading and
writing the path currently succeed (missing file, permission or encoding
failures, write failures). -/
structure Storage where
  files : String → Option (List Char)
  readOk : String → Bool
  writeOk : String → Bool

/-- Read a file's full text, or fail as the open/readlines calls of
server.py lines 628-629 can. -/
def readFileS (σ : Storage) (path : String) : Except String (List Char) :=
  match σ.files path with
  | none => Except.error ("FileNotFoundError: " ++ path)
  | some c =>
    if σ.readOk path then Except.ok c
    else Except.error ("ReadError: " ++ path)

/-- Overwrite a file with full text, or fail as the open/writelines calls
of server.py lines 692-693 can; the write is whole-file. -/
def writeFileS (σ : Storage) (path : String) (c : List Char) :
    Except String Storage :=
  if σ.writeOk path then
    Except.ok { σ with files := fun p => if p = path then some c else σ.files p }
  else Except.error ("WriteError: " ++ path)

/-- The structured result dictionary returned by replace_lines; absent
keys are None. -/
structure RLResult where
  success : Bool
  message : Option String
  error : Option String
  diff : Option (List Char)
  dry_run : Option Bool
deriving DecidableEq

/-- The start_line range error text of server.py line 637. -/
def rangeStartMsg (s : Int) (total : Nat) : String :=
  "start_line " ++ toString s ++ " is out of range (file has " ++
    toString total ++ " lines)"

/-- The end_line range error text of server.py line 658. -/
def rangeEndMsg (e s : Int) (total : Nat) : String :=
  "end_line " ++ toString e ++ " is invalid (must be >= " ++ toString s ++
    " and <= " ++ toString total ++ ")"

/-- The success message of server.py line 697. -/
def successMsg (op : String) (s : Int) (e : Option Int) : String :=
  "Successfully " ++ op ++ "ed at line " ++ toString s ++
    (match e with | some ee => "-" ++ toString ee | none => "")

/-- The dry-run message of server.py line 686. -/
def dryMsg (op : String) (s : Int) (e : Option Int) : String :=
  "[DRY RUN] Would " ++ op ++ " at line " ++ toString s ++
    (match e with | some ee => "-" ++ toString ee | none => "")

/-- The diff reported by replace_lines (server.py lines 667-680): join the
unified-diff lines with the two header lines stripped, or the no-changes
text when there are no diff lines beyond the headers. -/
def diffOutputOf (file_path : String) (original_lines modified_lines :
    List (List Char)) : List Char :=
  if 2 < (unifiedDiff original_lines modified_lines
      (file_path.toList ++ (" (before)").toList)
      (file_path.toList ++ (" (after)").toList)).length then
    joinNL ((unifiedDiff original_lines modified_lines
      (file_path.toList ++ (" (before)").toList)
      (file_path.toList ++ (" (after)").toList)).drop 2)
  else noChangesMsg

/-- The diff-and-commit phase of replace_lines (server.py lines 663-700):
build the modified buffer, render the unified diff, strip its two header
lines (or report no changes), then either stop (dry run) or write the
whole buffer back. -/
def commitPhase (σ : Storage) (file_path : String) (start_line : Int)
    (new_content : List Char) (end_line : Option Int) (dry_run : Bool)
    (original_lines : List (List Char)) (operation : String) :
    RLResult × Storage :=
  let modified_lines := editedLines original_lines start_line new_content end_line
  let diff_output := diffOutputOf file_path original_lines modified_lines
  if dry_run then
    ({ success := true, message := some (dryMsg operation start_line end_line),
       error := none, diff := some diff_output, dry_run := some true }, σ)
  else
    match writeFileS σ file_path modified_lines.flatten with
    | Except.ok σ2 =>
      ({ success := true,
         message := some (successMsg operation start_line end_line),
         error := none, diff := some diff_output, dry_run := some false }, σ2)
    | Except.error e =>
      ({ success := false, message := some ("Error processing " ++ file_path),
         error := some e, diff := none, dry_run := none }, σ)

/-- The replace_lines tool of server.py lines 605-707: read the file,
validate the 1-based range, splice the new lines in (insert when end_line
is absent, replace the inclusive range otherwise), report a unified diff,
and commit unless dry_run; every failure is returned as a structured
result. -/
def replace_lines (σ : Storage) (file_path : String) (start_line : Int)
    (new_content : List Char) (end_line : Option Int) (dry_run : Bool) :
    RLResult × Storage :=
  match readFileS σ file_path with
  | Except.error e =>
    ({ success := false, message := some ("Error processing " ++ file_path),
       error := some e, diff := none, dry_run := none }, σ)
  | Except.ok content =>
    let original_lines := readlines content
    let total_lines := original_lines.length
    if start_line < 1 ∨ (total_lines : Int) + 1 < start_line then
      ({ success := false, message := none,
         error := some (rangeStartMsg start_line total_lines),
         diff := none, dry_run := none }, σ)
    else
      match end_line with
      | none =>
        commitPhase σ file_path start_line new_content none dry_run
          original_lines "insert"
      | some ee =>
        if ee < start_line ∨ (total_lines : Int) < ee then
          ({ success := false, message := none,
             error := some (rangeEndMsg ee start_line total_lines),
             diff := none, dry_run := none }, σ)
        else
          commitPhase σ file_path start_line new_content (some ee) dry_run
            original_lines "replace"

/-- Rebuild diff lines from the pieces of a newline split: an empty piece
marks the terminator of the previous line and is merged back into it. -/
def reconLines : List Char → List (List Char) → List (List Char)
  | cur, [] => [cur]
  | cur, [] :: ps => reconLines (cur ++ ['\n']) ps
  | cur, (c :: t) :: ps => cur :: reconLines (c :: t) ps

/-- Rebuild the individual diff lines of a newline-joined diff text. -/
def reconstructLines : List (List Char) → List (List Char)
  | [] => []
  | p :: ps => reconLines p ps

/-- Extract the 0-based original-side start position from a unified-diff
hunk header line. -/
def parseHunkStart (l : List Char) : Nat :=
  match splitOnCh ',' ((l.drop 4).takeWhile (fun c => c ≠ ' ')) with
  | [bs, ls] => if decParse ls = 0 then decParse bs else decParse bs - 1
  | [bs] => decParse bs - 1
  | _ => 0

/-- Replay unified-diff lines against the original line buffer: copy up to
each hunk, emit context and added lines, skip removed lines, and copy the
tail at the end; lines with an unknown first character are ignored. -/
def applyHunks : List (List Char) → Nat → List (List Char) → List (List Char)
  | [], pos, orig => orig.drop pos
  | [] :: rest, pos, orig => applyHunks rest pos orig
  | (c :: t) :: rest, pos, orig =>
    if c = '@' then
      ((orig.drop pos).take (parseHunkStart (c :: t) - pos)) ++
        applyHunks rest (parseHunkStart (c :: t)) orig
    else if c = ' ' then t :: applyHunks rest (pos + 1) orig
    else if c = '-' then applyHunks rest (pos + 1) orig
    else if c = '+' then t :: applyHunks rest pos orig
    else applyHunks rest pos orig

/-- Apply a header-stripped unified-diff text to a line buffer. -/
def applyUnified (d : List Char) (orig : List (List Char)) :
    List (List Char) :=
  applyHunks (reconstructLines (splitOnCh '\n' d)) 0 orig

/-- Apply a header-stripped unified-diff text to full file content. -/
def applyUnifiedContent (d : List Char) (content : List Char) : List Char :=
  (applyUnified d (readlines content)).flatten

/-- Invariant of every rendered diff line: nonempty, and any newline
character only at the very end of a longer line (so joining the lines on
newlines loses no information). -/
def DiffLineInv (d : List Char) : Prop :=
  d ≠ [] ∧ ('\n' ∉ d ∨ ∃ u, d = u ++ ['\n'] ∧ '\n' ∉ u ∧ u ≠ [])

/-- A storage holding exactly one file, at path f, readable and
writable. -/
def oneFile (c : List Char) : Storage :=
  { files := fun p => if p = "f" then some c else none,
    readOk := fun _ => true, writeOk := fun _ => true }

/- ------------------------------------------------------------------ -/
/- Basic facts about splitting, joining and the line invariants.       -/
/- ------------------------------------------------------------------ -/

theorem splitOnCh_ne_nil (ch : Char) (s : List Char) : splitOnCh ch s ≠ [] := by
  cases s with
  | nil => simp [splitOnCh]
  | cons c cs =>
    simp only [splitOnCh]
    split
    · simp
    · cases h : splitOnCh ch cs <;> simp

theorem not_mem_of_mem_splitOnCh {ch : Char} {s p : List Char}
    (hp : p ∈ splitOnCh ch s) : ch ∉ p := by
  induction s generalizing p with
  | nil =>
    simp only [splitOnCh, List.mem_singleton] at hp
    simp [hp]
  | cons c cs ih =>
    simp only [splitOnCh] at hp
    by_cases hc : c = ch
    · rw [if_pos hc] at hp
      rcases List.mem_cons.mp hp with h | h
      · simp [h]
      · exact ih h
    · rw [if_neg hc] at hp
      cases hsp : splitOnCh ch cs with
      | nil => exact absurd hsp (splitOnCh_ne_nil ch cs)
      | cons l ls =>
        rw [hsp] at hp
        rcases List.mem_cons.mp hp with h | h
        · subst h
          have hl : ch ∉ l := ih (by rw [hsp]; exact List.mem_cons_self l ls)
          intro hmem
          rcases List.mem_cons.mp hmem with h1 | h1
          · exact hc h1.symm
          · exact hl h1
        · exact ih (by rw [hsp]; exact List.mem_cons_of_mem l h)

theorem splitOnCh_of_not_mem {ch : Char} {s : List Char} (h : ch ∉ s) :
    splitOnCh ch s = [s] := by
  induction s with
  | nil => rfl
  | cons c cs ih =>
    simp only [List.mem_cons, not_or] at h
    simp only [splitOnCh, ih h.2]
    rw [if_neg (Ne.symm h.1)]

theorem splitOnCh_append_cons (ch : Char) (xs ys : List Char) :
    splitOnCh ch (xs ++ ch :: ys) = splitOnCh ch xs ++ splitOnCh ch ys := by
  induction xs with
  | nil => simp [splitOnCh]
  | cons c cs ih =>
    by_cases hc : c = ch
    · show splitOnCh ch (c :: (cs ++ ch :: ys)) = _
      simp only [splitOnCh, if_pos hc]
      exact congrArg (List.cons []) ih
    · show splitOnCh ch (c :: (cs ++ ch :: ys)) = _
      simp only [splitOnCh, if_neg hc, ih]
      cases h : splitOnCh ch cs with
      | nil => exact absurd h (splitOnCh_ne_nil ch cs)
      | cons l ls => rfl

theorem joinSep_splitOnCh (ch : Char) (s : List Char) :
    joinSep ch (splitOnCh ch s) = s := by
  induction s with
  | nil => rfl
  | cons c cs ih =>
    by_cases hc : c = ch
    · subst hc
      simp only [splitOnCh, if_pos rfl]
      cases h : splitOnCh c cs with
      | nil => exact absurd h (splitOnCh_ne_nil c cs)
      | cons l ls =>
        rw [h] at ih
        show [] ++ c :: joinSep c (l :: ls) = c :: cs
        rw [List.nil_append, ih]
    · simp only [splitOnCh, if_neg hc]
      cases h : splitOnCh ch cs with
      | nil => exact absurd h (splitOnCh_ne_nil ch cs)
      | cons l ls =>
        rw [h] at ih
        cases ls with
        | nil =>
          show c :: l = c :: cs
          rw [show joinSep ch [l] = l from rfl] at ih
          rw [ih]
        | cons l2 ls2 =>
          show (c :: l) ++ ch :: joinSep ch (l2 :: ls2) = c :: cs
          rw [show joinSep ch (l :: l2 :: ls2) = l ++ ch :: joinSep ch (l2 :: ls2)
            from rfl] at ih
          rw [List.cons_append, ih]

theorem readlines_flatten (s : List Char) : (readlines s).flatten = s := by
  induction s with
  | nil => rfl
  | cons c cs ih =>
    by_cases hc : c = '\n'
    · subst hc
      simp only [readlines, if_pos rfl]
      simp [ih]
    · simp only [readlines, if_neg hc]
      cases h : readlines cs with
      | nil =>
        rw [h] at ih
        simp only [List.flatten_nil] at ih
        simp [← ih]
      | cons l ls =>
        rw [h] at ih
        simp only [List.flatten_cons] at ih ⊢
        simp [← ih]

theorem readlines_nil_iff (s : List Char) : readlines s = [] ↔ s = [] := by
  constructor
  · intro h
    have := readlines_flatten s
    rw [h] at this
    simpa using this.symm
  · intro h; subst h; rfl

theorem lineInv_readlines {s : List Char} : ∀ l ∈ readlines s, LineInv l := by
  induction s with
  | nil => simp [readlines]
  | cons c cs ih =>
    intro l hl
    by_cases hc : c = '\n'
    · subst hc
      simp only [readlines, if_pos rfl] at hl
      rcases List.mem_cons.mp hl with h | h
      · exact Or.inl ⟨[], by simp [h], by simp⟩
      · exact ih l h
    · simp only [readlines, if_neg hc] at hl
      cases h : readlines cs with
      | nil =>
        rw [h] at hl
        simp only [List.mem_singleton] at hl
        subst hl
        refine Or.inr ?_
        simp only [List.mem_singleton]
        exact Ne.symm hc
      | cons l0 ls =>
        rw [h] at hl
        rcases List.mem_cons.mp hl with h1 | h1
        · subst h1
          have h0 : LineInv l0 := ih l0 (by rw [h]; exact List.mem_cons_self l0 ls)
          rcases h0 with ⟨t, ht, hnt⟩ | hno
          · refine Or.inl ⟨c :: t, by rw [ht]; rfl, ?_⟩
            intro hm
            rcases List.mem_cons.mp hm with h2 | h2
            · exact hc h2.symm
            · exact hnt h2
          · refine Or.inr ?_
            intro hm
            rcases List.mem_cons.mp hm with h2 | h2
            · exact hc h2.symm
            · exact hno h2
        · exact ih l (by rw [h]; exact List.mem_cons_of_mem l0 h1)

theorem addNLexceptLast_ne_nil {ps : List (List Char)} (h : ps ≠ []) :
    addNLexceptLast ps ≠ [] := by
  cases ps with
  | nil => exact absurd rfl h
  | cons p ps => cases ps <;> simp [addNLexceptLast]

theorem appendNLlast_ne_nil {ps : List (List Char)} (h : ps ≠ []) :
    appendNLlast ps ≠ [] := by
  cases ps with
  | nil => exact absurd rfl h
  | cons p ps => cases ps <;> simp [appendNLlast]

theorem newLines_ne_nil (t : List Char) : newLines t ≠ [] := by
  unfold newLines
  have h1 := addNLexceptLast_ne_nil (splitOnCh_ne_nil '\n' t)
  split
  · exact appendNLlast_ne_nil h1
  · exact h1

theorem lineInv_addNLexceptLast {ps : List (List Char)}
    (hp : ∀ p ∈ ps, '\n' ∉ p) : ∀ l ∈ addNLexceptLast ps, LineInv l := by
  induction ps with
  | nil => simp [addNLexceptLast]
  | cons p ps ih =>
    cases ps with
    | nil =>
      intro l hl
      simp only [addNLexceptLast, List.mem_singleton] at hl
      subst hl
      exact Or.inr (hp l (List.mem_singleton_self l))
    | cons p2 ps2 =>
      intro l hl
      rcases List.mem_cons.mp hl with h | h
      · exact Or.inl ⟨p, h, hp p (List.mem_cons_self p _)⟩
      · exact ih (fun x hx => hp x (List.mem_cons_of_mem p hx)) l h

theorem lineInv_appendNLlast {ps : List (List Char)}
    (hinv : ∀ l ∈ ps, LineInv l)
    (hlast : ∀ l, ps.getLast? = some l → '\n' ∉ l) :
    ∀ l ∈ appendNLlast ps, LineInv l := by
  induction ps with
  | nil => simp [appendNLlast]
  | cons p ps ih =>
    cases ps with
    | nil =>
      intro l hl
      simp only [appendNLlast, List.mem_singleton] at hl
      subst hl
      exact Or.inl ⟨p, rfl, hlast p rfl⟩
    | cons p2 ps2 =>
      intro l hl
      rcases List.mem_cons.mp hl with h | h
      · subst h
        exact hinv l (List.mem_cons_self l _)
      · exact ih (fun x hx => hinv x (List.mem_cons_of_mem p hx))
          (fun x hx => hlast x (by rw [List.getLast?_cons_cons]; exact hx)) l h

theorem addNLexceptLast_getLast {ps : List (List Char)} {l : List Char}
    (h : (addNLexceptLast ps).getLast? = some l) : ps.getLast? = some l := by
  induction ps generalizing l with
  | nil => simp [addNLexceptLast] at h
  | cons p ps ih =>
    cases ps with
    | nil => simpa [addNLexceptLast] using h
    | cons p2 ps2 =>
      rw [List.getLast?_cons_cons]
      apply ih
      cases hA : addNLexceptLast (p2 :: ps2) with
      | nil => exact absurd hA (addNLexceptLast_ne_nil (by simp))
      | cons q qs =>
        rw [show addNLexceptLast (p :: p2 :: ps2) =
          (p ++ ['\n']) :: addNLexceptLast (p2 :: ps2) from rfl, hA,
          List.getLast?_cons_cons] at h
        exact h

theorem lineInv_newLines {t : List Char} : ∀ l ∈ newLines t, LineInv l := by
  unfold newLines
  have hp : ∀ p ∈ splitOnCh '\n' t, '\n' ∉ p :=
    fun p hp => not_mem_of_mem_splitOnCh hp
  have hA := lineInv_addNLexceptLast hp
  split
  · refine lineInv_appendNLlast hA (fun l hl => ?_)
    have h3 := addNLexceptLast_getLast hl
    rcases List.mem_getLast?_eq_getLast (Option.mem_def.mpr h3) with ⟨hne, heq⟩
    refine hp l ?_
    rw [heq]
    exact List.getLast_mem hne
  · exact hA

theorem addNLexceptLast_flatten (ps : List (List Char)) :
    (addNLexceptLast ps).flatten = joinSep '\n' ps := by
  induction ps with
  | nil => rfl
  | cons p ps ih =>
    cases ps with
    | nil => simp [addNLexceptLast, joinSep]
    | cons p2 ps2 =>
      show ((p ++ ['\n']) :: addNLexceptLast (p2 :: ps2)).flatten =
        p ++ '\n' :: joinSep '\n' (p2 :: ps2)
      rw [List.flatten_cons, ih]
      simp

theorem appendNLlast_flatten {ps : List (List Char)} (h : ps ≠ []) :
    (appendNLlast ps).flatten = ps.flatten ++ ['\n'] := by
  induction ps with
  | nil => exact absurd rfl h
  | cons p ps ih =>
    cases ps with
    | nil => simp [appendNLlast]
    | cons p2 ps2 =>
      show (p :: appendNLlast (p2 :: ps2)).flatten = (p :: p2 :: ps2).flatten ++ ['\n']
      rw [List.flatten_cons, ih (by simp), List.flatten_cons]
      simp

theorem newLines_flatten (t : List Char) :
    (newLines t).flatten = if endsNL t then t ++ ['\n'] else t := by
  unfold newLines
  split
  · rw [appendNLlast_flatten (addNLexceptLast_ne_nil (splitOnCh_ne_nil '\n' t)),
      addNLexceptLast_flatten, joinSep_splitOnCh]
  · rw [addNLexceptLast_flatten, joinSep_splitOnCh]

/- ------------------------------------------------------------------ -/
/- Facts about the splice operation.                                   -/
/- ------------------------------------------------------------------ -/

theorem splice_length {orig : List (List Char)} {i j : Nat}
    (repl : List (List Char)) (hij : i ≤ j) (hj : j ≤ orig.length) :
    (splice orig i j repl).length = orig.length - (j - i) + repl.length := by
  simp only [splice, List.length_append, List.length_take, List.length_drop]
  omega

theorem splice_take {orig : List (List Char)} {i : Nat} (j : Nat)
    (repl : List (List Char)) (hi : i ≤ orig.length) :
    (splice orig i j repl).take i = orig.take i := by
  unfold splice
  rw [List.take_append_eq_append_take, List.take_append_eq_append_take]
  have hlen : (List.take i orig).length = i := by
    rw [List.length_take]; omega
  have hlen2 : (List.take i orig ++ repl).length = i + repl.length := by
    rw [List.length_append, hlen]
  rw [hlen, hlen2, Nat.sub_self, List.take_zero, List.append_nil]
  have h0 : i - (i + repl.length) = 0 := by omega
  rw [h0, List.take_zero, List.append_nil, List.take_take, Nat.min_self]

theorem splice_drop {orig : List (List Char)} {i j : Nat}
    (repl : List (List Char)) (hi : i ≤ orig.length) :
    (splice orig i j repl).drop (i + repl.length) = orig.drop j := by
  unfold splice
  rw [List.drop_append_eq_append_drop, List.drop_append_eq_append_drop]
  have hlen : (List.take i orig).length = i := by
    rw [List.length_take]; omega
  have hlen2 : (List.take i orig ++ repl).length = i + repl.length := by
    rw [List.length_append, hlen]
  have h1 : List.drop (i + repl.length) (List.take i orig) = [] :=
    List.drop_eq_nil_of_le (by rw [hlen]; omega)
  have h2 : List.drop (i + repl.length - (List.take i orig).length) repl = [] := by
    rw [hlen]
    exact List.drop_eq_nil_of_le (by omega)
  rw [h1, h2, hlen2, List.nil_append, List.nil_append, Nat.sub_self,
    List.drop_zero]

theorem mem_splice {orig repl : List (List Char)} {i j : Nat} {l : List Char}
    (h : l ∈ splice orig i j repl) : l ∈ orig ∨ l ∈ repl := by
  simp only [splice, List.mem_append] at h
  rcases h with (h | h) | h
  · exact Or.inl (List.take_subset _ _ h)
  · exact Or.inr h
  · exact Or.inl (List.drop_subset _ _ h)

/- ------------------------------------------------------------------ -/
/- Decimal rendering and parsing of hunk-header positions.             -/
/- ------------------------------------------------------------------ -/

theorem natDigits_lt (f n : Nat) : ∀ d ∈ natDigits f n, d < 10 := by
  induction f generalizing n with
  | zero => simp [natDigits]
  | succ f ih =>
    cases n with
    | zero => simp [natDigits]
    | succ n =>
      intro d hd
      rcases List.mem_cons.mp hd with h | h
      · subst h; exact Nat.mod_lt _ (by omega)
      · exact ih _ d h

theorem natDigits_foldr {f n : Nat} (h : n ≤ f) :
    (natDigits f n).foldr (fun d acc => acc * 10 + d) 0 = n := by
  induction f generalizing n with
  | zero =>
    have : n = 0 := by omega
    subst this
    rfl
  | succ f ih =>
    cases n with
    | zero => rfl
    | succ n =>
      rw [show natDigits (f + 1) (n + 1) =
        ((n + 1) % 10) :: natDigits f ((n + 1) / 10) from rfl, List.foldr_cons]
      have hdiv : (n + 1) / 10 < n + 1 := Nat.div_lt_self (Nat.succ_pos n) (by omega)
      rw [ih (by omega)]
      have h2 := Nat.div_add_mod (n + 1) 10
      omega

theorem digitChar_val {d : Nat} (h : d < 10) :
    (Nat.digitChar d).toNat - Char.toNat '0' = d := by
  interval_cases d <;> rfl

theorem foldr_digitChar (l : List Nat) (hl : ∀ d ∈ l, d < 10) :
    l.foldr (fun d acc => acc * 10 + ((Nat.digitChar d).toNat - Char.toNat '0')) 0 =
      l.foldr (fun d acc => acc * 10 + d) 0 := by
  induction l with
  | nil => rfl
  | cons d l ih =>
    rw [List.foldr_cons, List.foldr_cons,
      ih (fun x hx => hl x (List.mem_cons_of_mem d hx)),
      digitChar_val (hl d (List.mem_cons_self d l))]

theorem decParse_natDecRepr (n : Nat) : decParse (natDecRepr n) = n := by
  unfold natDecRepr
  split
  · next h => rw [h]; rfl
  · next h =>
    unfold decParse
    rw [List.foldl_map, List.foldl_reverse, foldr_digitChar _ (natDigits_lt n n),
      natDigits_foldr (le_refl n)]

theorem natDecRepr_chars (n : Nat) :
    ∀ c ∈ natDecRepr n, c ≠ '\n' ∧ c ≠ ' ' ∧ c ≠ ',' ∧ c ≠ '@' := by
  unfold natDecRepr
  split
  · intro c hc
    simp only [List.mem_singleton] at hc
    subst hc
    exact ⟨by decide, by decide, by decide, by decide⟩
  · intro c hc
    rcases List.mem_map.mp hc with ⟨d, hd, rfl⟩
    have hd10 : d < 10 := natDigits_lt n n d (List.mem_reverse.mp hd)
    interval_cases d <;> exact ⟨by decide, by decide, by decide, by decide⟩

theorem natDecRepr_ne_nil (n : Nat) : natDecRepr n ≠ [] := by
  unfold natDecRepr
  split
  · simp
  · next h =>
    intro hemp
    have h2 := congrArg List.length hemp
    simp only [List.length_map, List.length_reverse, List.length_nil] at h2
    have h1 : natDigits n n = [] := List.length_eq_zero.mp h2
    have h3 := natDigits_foldr (le_refl n)
    rw [h1] at h3
    exact h (by simpa using h3.symm)

/- ------------------------------------------------------------------ -/
/- Hunk header rendering and parsing invert each other.                -/
/- ------------------------------------------------------------------ -/

theorem takeWhile_append_not {p : Char → Bool} {xs : List Char} {y : Char}
    (ys : List Char) (hxs : ∀ x ∈ xs, p x = true) (hy : p y = false) :
    (xs ++ y :: ys).takeWhile p = xs := by
  induction xs with
  | nil => simp [List.takeWhile_cons, hy]
  | cons x xs ih =>
    rw [List.cons_append, List.takeWhile_cons, hxs x (List.mem_cons_self x xs),
      if_pos rfl, ih (fun z hz => hxs z (List.mem_cons_of_mem x hz))]

theorem formatRange_chars (s0 len : Nat) :
    ∀ c ∈ formatRange s0 len, c ≠ '\n' ∧ c ≠ ' ' ∧ c ≠ '@' := by
  unfold formatRange
  split
  · intro c hc
    have h := natDecRepr_chars _ c hc
    exact ⟨h.1, h.2.1, h.2.2.2⟩
  · split <;>
    · intro c hc
      rcases List.mem_append.mp hc with h | h
      · have h2 := natDecRepr_chars _ c h
        exact ⟨h2.1, h2.2.1, h2.2.2.2⟩
      · rcases List.mem_cons.mp h with rfl | h2
        · exact ⟨by decide, by decide, by decide⟩
        · have h3 := natDecRepr_chars _ c h2
          exact ⟨h3.1, h3.2.1, h3.2.2.2⟩

theorem mkHunkHdr_takeWhile (s0 alen blen : Nat) :
    ((mkHunkHdr s0 alen blen).drop 4).takeWhile (fun c => decide (c ≠ ' ')) =
      formatRange s0 alen := by
  have hdrop : (mkHunkHdr s0 alen blen).drop 4 =
      formatRange s0 alen ++ ' ' :: '+' ::
        (formatRange s0 blen ++ [' ', '@', '@']) := rfl
  rw [hdrop]
  exact takeWhile_append_not _
    (fun x hx => decide_eq_true ((formatRange_chars s0 alen x hx).2.1))
    (by decide)

theorem parseHunkStart_mkHunkHdr (s0 alen blen : Nat) :
    parseHunkStart (mkHunkHdr s0 alen blen) = s0 := by
  unfold parseHunkStart
  rw [mkHunkHdr_takeWhile]
  by_cases h1 : alen = 1
  · have hsp : splitOnCh ',' (formatRange s0 alen) = [natDecRepr (s0 + 1)] := by
      rw [formatRange, if_pos h1]
      exact splitOnCh_of_not_mem
        (fun hm => (natDecRepr_chars (s0 + 1) ',' hm).2.2.1 rfl)
    rw [hsp]
    show decParse (natDecRepr (s0 + 1)) - 1 = s0
    rw [decParse_natDecRepr]
    omega
  · by_cases h0 : alen = 0
    · have hsp : splitOnCh ',' (formatRange s0 alen) =
          [natDecRepr s0, natDecRepr 0] := by
        rw [formatRange, if_neg h1, if_pos h0, splitOnCh_append_cons,
          splitOnCh_of_not_mem (fun hm => (natDecRepr_chars s0 ',' hm).2.2.1 rfl),
          splitOnCh_of_not_mem (fun hm => (natDecRepr_chars 0 ',' hm).2.2.1 rfl)]
        rfl
      rw [hsp]
      show (if decParse (natDecRepr 0) = 0 then decParse (natDecRepr s0)
        else decParse (natDecRepr s0) - 1) = s0
      rw [decParse_natDecRepr, decParse_natDecRepr]
      rfl
    · have hsp : splitOnCh ',' (formatRange s0 alen) =
          [natDecRepr (s0 + 1), natDecRepr alen] := by
        rw [formatRange, if_neg h1, if_neg h0, splitOnCh_append_cons,
          splitOnCh_of_not_mem
            (fun hm => (natDecRepr_chars (s0 + 1) ',' hm).2.2.1 rfl),
          splitOnCh_of_not_mem (fun hm => (natDecRepr_chars alen ',' hm).2.2.1 rfl)]
        rfl
      rw [hsp]
      show (if decParse (natDecRepr alen) = 0 then decParse (natDecRepr (s0 + 1))
        else decParse (natDecRepr (s0 + 1)) - 1) = s0
      rw [decParse_natDecRepr, decParse_natDecRepr, if_neg h0]
      omega

theorem mkHunkHdr_no_nl (s0 alen blen : Nat) : '\n' ∉ mkHunkHdr s0 alen blen := by
  intro hm
  unfold mkHunkHdr at hm
  rcases List.mem_cons.mp hm with h | hm1; · exact absurd h.symm (by decide)
  rcases List.mem_cons.mp hm1 with h | hm2; · exact absurd h.symm (by decide)
  rcases List.mem_cons.mp hm2 with h | hm3; · exact absurd h.symm (by decide)
  rcases List.mem_cons.mp hm3 with h | hm4; · exact absurd h.symm (by decide)
  rcases List.mem_append.mp hm4 with h | hm5
  · exact (formatRange_chars s0 alen '\n' h).1 rfl
  rcases List.mem_cons.mp hm5 with h | hm6; · exact absurd h.symm (by decide)
  rcases List.mem_cons.mp hm6 with h | hm7; · exact absurd h.symm (by decide)
  rcases List.mem_append.mp hm7 with h | hm8
  · exact (formatRange_chars s0 blen '\n' h).1 rfl
  · exact absurd hm8 (by decide)

/- ------------------------------------------------------------------ -/
/- Decomposition of two sequences into common prefix, middles and      -/
/- common suffix, as used by the diff renderer.                        -/
/- ------------------------------------------------------------------ -/

theorem comPre_self (a : List (List Char)) : comPre a a = a := by
  induction a with
  | nil => rfl
  | cons x a ih => simp [comPre, ih]

theorem comPre_append (a b : List (List Char)) :
    comPre a b ++ a.drop (comPre a b).length = a := by
  induction a generalizing b with
  | nil => cases b <;> rfl
  | cons x a ih =>
    cases b with
    | nil => rfl
    | cons y b =>
      by_cases h : x = y
      · simp only [comPre, if_pos h, List.cons_append, List.length_cons,
          List.drop_succ_cons]
        rw [ih b]
      · simp [comPre, if_neg h]

theorem comPre_append_right (a b : List (List Char)) :
    comPre a b ++ b.drop (comPre a b).length = b := by
  induction a generalizing b with
  | nil => cases b <;> rfl
  | cons x a ih =>
    cases b with
    | nil => rfl
    | cons y b =>
      by_cases h : x = y
      · simp only [comPre, if_pos h, List.cons_append, List.length_cons,
          List.drop_succ_cons]
        rw [ih b, h]
      · simp [comPre, if_neg h]

theorem rev_drop_rev (l : List (List Char)) (n : Nat) :
    (l.reverse.drop n).reverse = l.take (l.length - n) := by
  rw [List.reverse_drop, List.reverse_reverse, List.length_reverse]

theorem diffMidA_append (a b : List (List Char)) :
    diffMidA a b ++ diffQ a b = a.drop (comPre a b).length := by
  have h := comPre_append ((a.drop (comPre a b).length).reverse)
    ((b.drop (comPre a b).length).reverse)
  have h2 := congrArg List.reverse h
  rw [List.reverse_append, List.reverse_reverse, rev_drop_rev] at h2
  have hmid : diffMidA a b = (a.drop (comPre a b).length).take
      ((a.drop (comPre a b).length).length -
        (comPre ((a.drop (comPre a b).length).reverse)
          ((b.drop (comPre a b).length).reverse)).length) := by
    unfold diffMidA diffQ
    rw [List.length_reverse]
  rw [hmid, show diffQ a b = (comPre ((a.drop (comPre a b).length).reverse)
    ((b.drop (comPre a b).length).reverse)).reverse from rfl]
  exact h2

theorem diffMidB_append (a b : List (List Char)) :
    diffMidB a b ++ diffQ a b = b.drop (comPre a b).length := by
  have h := comPre_append_right ((a.drop (comPre a b).length).reverse)
    ((b.drop (comPre a b).length).reverse)
  have h2 := congrArg List.reverse h
  rw [List.reverse_append, List.reverse_reverse, rev_drop_rev] at h2
  have hmid : diffMidB a b = (b.drop (comPre a b).length).take
      ((b.drop (comPre a b).length).length -
        (comPre ((a.drop (comPre a b).length).reverse)
          ((b.drop (comPre a b).length).reverse)).length) := by
    unfold diffMidB diffQ
    rw [List.length_reverse]
  rw [hmid, show diffQ a b = (comPre ((a.drop (comPre a b).length).reverse)
    ((b.drop (comPre a b).length).reverse)).reverse from rfl]
  exact h2

theorem decompA (a b : List (List Char)) :
    comPre a b ++ (diffMidA a b ++ diffQ a b) = a := by
  rw [diffMidA_append, comPre_append]

theorem decompB (a b : List (List Char)) :
    comPre a b ++ (diffMidB a b ++ diffQ a b) = b := by
  rw [diffMidB_append, comPre_append_right]

theorem diffMid_nil_of_eq (a : List (List Char)) :
    diffMidA a a = [] ∧ diffMidB a a = [] := by
  have h : a.drop (comPre a a).length = [] := by
    rw [comPre_self]
    exact List.drop_eq_nil_of_le (le_refl _)
  constructor
  · unfold diffMidA
    rw [h]
    simp
  · unfold diffMidB
    rw [h]
    simp

theorem eq_of_diffMid_nil {a b : List (List Char)}
    (ha : diffMidA a b = []) (hb : diffMidB a b = []) : a = b := by
  have h1 := decompA a b
  have h2 := decompB a b
  rw [ha] at h1
  rw [hb] at h2
  exact h1.symm.trans h2

/- ------------------------------------------------------------------ -/
/- Replaying rendered hunk lines.                                      -/
/- ------------------------------------------------------------------ -/

theorem applyHunks_context (ls : List (List Char)) :
    ∀ (rest : List (List Char)) (pos : Nat) (orig : List (List Char)),
    applyHunks (ls.map (fun l => ' ' :: l) ++ rest) pos orig =
      ls ++ applyHunks rest (pos + ls.length) orig := by
  induction ls with
  | nil => intro rest pos orig; simp
  | cons l ls ih =>
    intro rest pos orig
    show applyHunks ((' ' :: l) :: (ls.map (fun l => ' ' :: l) ++ rest)) pos orig = _
    rw [show applyHunks ((' ' :: l) :: (ls.map (fun l => ' ' :: l) ++ rest)) pos orig
        = if (' ' = '@') then
            ((orig.drop pos).take (parseHunkStart (' ' :: l) - pos)) ++
              applyHunks (ls.map (fun l => ' ' :: l) ++ rest)
                (parseHunkStart (' ' :: l)) orig
          else if (' ' = ' ') then
            l :: applyHunks (ls.map (fun l => ' ' :: l) ++ rest) (pos + 1) orig
          else if (' ' = '-') then
            applyHunks (ls.map (fun l => ' ' :: l) ++ rest) (pos + 1) orig
          else if (' ' = '+') then
            l :: applyHunks (ls.map (fun l => ' ' :: l) ++ rest) pos orig
          else applyHunks (ls.map (fun l => ' ' :: l) ++ rest) pos orig
      from rfl]
    rw [if_neg (by decide), if_pos rfl, ih rest (pos + 1) orig]
    have harith : pos + 1 + ls.length = pos + (l :: ls).length := by
      rw [List.length_cons]; omega
    rw [harith]
    rfl

theorem applyHunks_minus (ls : List (List Char)) :
    ∀ (rest : List (List Char)) (pos : Nat) (orig : List (List Char)),
    applyHunks (ls.map (fun l => '-' :: l) ++ rest) pos orig =
      applyHunks rest (pos + ls.length) orig := by
  induction ls with
  | nil => intro rest pos orig; simp
  | cons l ls ih =>
    intro rest pos orig
    show applyHunks (('-' :: l) :: (ls.map (fun l => '-' :: l) ++ rest)) pos orig = _
    rw [show applyHunks (('-' :: l) :: (ls.map (fun l => '-' :: l) ++ rest)) pos orig
        = if ('-' = '@') then
            ((orig.drop pos).take (parseHunkStart ('-' :: l) - pos)) ++
              applyHunks (ls.map (fun l => '-' :: l) ++ rest)
                (parseHunkStart ('-' :: l)) orig
          else if ('-' = ' ') then
            l :: applyHunks (ls.map (fun l => '-' :: l) ++ rest) (pos + 1) orig
          else if ('-' = '-') then
            applyHunks (ls.map (fun l => '-' :: l) ++ rest) (pos + 1) orig
          else if ('-' = '+') then
            l :: applyHunks (ls.map (fun l => '-' :: l) ++ rest) pos orig
          else applyHunks (ls.map (fun l => '-' :: l) ++ rest) pos orig
      from rfl]
    rw [if_neg (by decide), if_neg (by decide), if_pos rfl, ih rest (pos + 1) orig]
    have harith : pos + 1 + ls.length = pos + (l :: ls).length := by
      rw [List.length_cons]; omega
    rw [harith]

theorem applyHunks_plus (ls : List (List Char)) :
    ∀ (rest : List (List Char)) (pos : Nat) (orig : List (List Char)),
    applyHunks (ls.map (fun l => '+' :: l) ++ rest) pos orig =
      ls ++ applyHunks rest pos orig := by
  induction ls with
  | nil => intro rest pos orig; simp
  | cons l ls ih =>
    intro rest pos orig
    show applyHunks (('+' :: l) :: (ls.map (fun l => '+' :: l) ++ rest)) pos orig = _
    rw [show applyHunks (('+' :: l) :: (ls.map (fun l => '+' :: l) ++ rest)) pos orig
        = if ('+' = '@') then
            ((orig.drop pos).take (parseHunkStart ('+' :: l) - pos)) ++
              applyHunks (ls.map (fun l => '+' :: l) ++ rest)
                (parseHunkStart ('+' :: l)) orig
          else if ('+' = ' ') then
            l :: applyHunks (ls.map (fun l => '+' :: l) ++ rest) (pos + 1) orig
          else if ('+' = '-') then
            applyHunks (ls.map (fun l => '+' :: l) ++ rest) (pos + 1) orig
          else if ('+' = '+') then
            l :: applyHunks (ls.map (fun l => '+' :: l) ++ rest) pos orig
          else applyHunks (ls.map (fun l => '+' :: l) ++ rest) pos orig
      from rfl]
    rw [if_neg (by decide), if_neg (by decide), if_neg (by decide), if_pos rfl,
      ih rest pos orig]
    rfl

theorem take_drop_min (q : List (List Char)) (n : Nat) :
    q.take n ++ q.drop (q.take n).length = q := by
  rw [List.length_take]
  rcases Nat.le_total n q.length with h | h
  · rw [Nat.min_eq_left h]
    exact List.take_append_drop n q
  · rw [Nat.min_eq_right h, List.drop_length, List.take_of_length_le h,
      List.append_nil]

theorem applyHunks_render (p da db q : List (List Char)) :
    applyHunks (mkHunkHdr (p.length - min 3 p.length)
        (min 3 p.length + da.length + (q.take 3).length)
        (min 3 p.length + db.length + (q.take 3).length) ::
      hunkBody (p.drop (p.length - min 3 p.length)) da db (q.take 3)) 0
      (p ++ (da ++ q)) = p ++ (db ++ q) := by
  have hm : min 3 p.length ≤ p.length := Nat.min_le_right 3 p.length
  have hs0 : p.length - min 3 p.length ≤ p.length := Nat.sub_le _ _
  have hcprelen : (p.drop (p.length - min 3 p.length)).length = min 3 p.length := by
    rw [List.length_drop]
    omega
  -- the header line starts with the at sign, so the first step copies the
  -- original up to the hunk start and jumps there
  rw [show applyHunks (mkHunkHdr (p.length - min 3 p.length)
        (min 3 p.length + da.length + (q.take 3).length)
        (min 3 p.length + db.length + (q.take 3).length) ::
      hunkBody (p.drop (p.length - min 3 p.length)) da db (q.take 3)) 0
      (p ++ (da ++ q)) =
      (((p ++ (da ++ q)).drop 0).take
          (parseHunkStart (mkHunkHdr (p.length - min 3 p.length)
            (min 3 p.length + da.length + (q.take 3).length)
            (min 3 p.length + db.length + (q.take 3).length)) - 0)) ++
        applyHunks (hunkBody (p.drop (p.length - min 3 p.length)) da db (q.take 3))
          (parseHunkStart (mkHunkHdr (p.length - min 3 p.length)
            (min 3 p.length + da.length + (q.take 3).length)
            (min 3 p.length + db.length + (q.take 3).length)))
          (p ++ (da ++ q)) from rfl]
  rw [parseHunkStart_mkHunkHdr, List.drop_zero, Nat.sub_zero]
  -- the copied part is the untouched head of the common prefix
  have htake : (p ++ (da ++ q)).take (p.length - min 3 p.length) =
      p.take (p.length - min 3 p.length) := by
    rw [List.take_append_eq_append_take]
    have h0 : p.length - min 3 p.length - p.length = 0 := by omega
    rw [h0, List.take_zero, List.append_nil]
  rw [htake]
  -- unfold the hunk body into its four runs
  rw [show hunkBody (p.drop (p.length - min 3 p.length)) da db (q.take 3) =
      (p.drop (p.length - min 3 p.length)).map (fun l => ' ' :: l) ++
        (da.map (fun l => '-' :: l) ++ (db.map (fun l => '+' :: l) ++
          ((q.take 3).map (fun l => ' ' :: l) ++ []))) from by
    unfold hunkBody
    simp [List.append_assoc]]
  rw [applyHunks_context, applyHunks_minus, applyHunks_plus, applyHunks_context]
  rw [hcprelen]
  -- the final copy is exactly the common suffix past the shown context
  rw [show applyHunks [] (p.length - min 3 p.length + min 3 p.length + da.length +
      (q.take 3).length) (p ++ (da ++ q)) =
      (p ++ (da ++ q)).drop (p.length - min 3 p.length + min 3 p.length +
        da.length + (q.take 3).length) from rfl]
  have hpos : p.length - min 3 p.length + min 3 p.length + da.length +
      (q.take 3).length = p.length + da.length + (q.take 3).length := by omega
  rw [hpos]
  have hdrop : (p ++ (da ++ q)).drop (p.length + da.length + (q.take 3).length) =
      q.drop (q.take 3).length := by
    rw [List.drop_append_eq_append_drop]
    have h1 : List.drop (p.length + da.length + (q.take 3).length) p = [] :=
      List.drop_eq_nil_of_le (by omega)
    rw [h1, List.nil_append, List.drop_append_eq_append_drop]
    have h2 : List.drop (p.length + da.length + (q.take 3).length - p.length) da
        = [] := List.drop_eq_nil_of_le (by omega)
    rw [h2, List.nil_append]
    congr 1
    omega
  rw [hdrop]
  -- reassemble
  calc p.take (p.length - min 3 p.length) ++
        (p.drop (p.length - min 3 p.length) ++
          (db ++ (q.take 3 ++ q.drop (q.take 3).length)))
      = p.take (p.length - min 3 p.length) ++
          (p.drop (p.length - min 3 p.length) ++ (db ++ q)) := by
        rw [take_drop_min]
    _ = (p.take (p.length - min 3 p.length) ++
          p.drop (p.length - min 3 p.length)) ++ (db ++ q) := by
        rw [List.append_assoc]
    _ = p ++ (db ++ q) := by rw [List.take_append_drop]

/- ------------------------------------------------------------------ -/
/- Joining diff lines on newlines and parsing them back is lossless.   -/
/- ------------------------------------------------------------------ -/

theorem splitOnCh_joinNL (ds : List (List Char)) (h : ds ≠ []) :
    splitOnCh '\n' (joinNL ds) = (ds.map (splitOnCh '\n')).flatten := by
  induction ds with
  | nil => exact absurd rfl h
  | cons d ds ih =>
    cases ds with
    | nil =>
      rw [show joinNL [d] = d from rfl]
      simp
    | cons d2 ds2 =>
      rw [show joinNL (d :: d2 :: ds2) = d ++ '\n' :: joinNL (d2 :: ds2) from rfl,
        splitOnCh_append_cons, ih (by simp)]
      simp

theorem reconLines_flatten (ds : List (List Char)) :
    ∀ (cur : List Char), (∀ d ∈ ds, DiffLineInv d) →
    reconLines cur ((ds.map (splitOnCh '\n')).flatten) = cur :: ds := by
  induction ds with
  | nil => intro cur _; rfl
  | cons d ds ih =>
    intro cur hds
    rcases hds d (List.mem_cons_self d ds) with ⟨hne, hsplit⟩
    have hrest : ∀ x ∈ ds, DiffLineInv x :=
      fun x hx => hds x (List.mem_cons_of_mem d hx)
    rcases hsplit with hno | ⟨u, hu, hnu, hune⟩
    · rw [List.map_cons, List.flatten_cons, splitOnCh_of_not_mem hno]
      cases d with
      | nil => exact absurd rfl hne
      | cons c t =>
        rw [show ([c :: t] : List (List Char)) ++ (ds.map (splitOnCh '\n')).flatten
          = (c :: t) :: (ds.map (splitOnCh '\n')).flatten from rfl,
          show reconLines cur ((c :: t) :: (ds.map (splitOnCh '\n')).flatten) =
            cur :: reconLines (c :: t) ((ds.map (splitOnCh '\n')).flatten) from rfl,
          ih (c :: t) hrest]
    · rw [List.map_cons, List.flatten_cons, hu,
        show u ++ ['\n'] = u ++ '\n' :: [] from rfl, splitOnCh_append_cons,
        splitOnCh_of_not_mem hnu]
      cases u with
      | nil => exact absurd rfl hune
      | cons c t =>
        rw [show ([c :: t] : List (List Char)) ++ splitOnCh '\n' [] ++
            (ds.map (splitOnCh '\n')).flatten
          = (c :: t) :: [] :: (ds.map (splitOnCh '\n')).flatten from rfl,
          show reconLines cur ((c :: t) :: [] :: (ds.map (splitOnCh '\n')).flatten)
            = cur :: reconLines ((c :: t) ++ ['\n'])
                ((ds.map (splitOnCh '\n')).flatten) from rfl,
          ih ((c :: t) ++ ['\n']) hrest, ← hu]

theorem reconstructLines_joinNL (ds : List (List Char)) (h : ds ≠ [])
    (hds : ∀ d ∈ ds, DiffLineInv d) :
    reconstructLines (splitOnCh '\n' (joinNL ds)) = ds := by
  rw [splitOnCh_joinNL ds h]
  cases ds with
  | nil => exact absurd rfl h
  | cons d ds =>
    rcases hds d (List.mem_cons_self d ds) with ⟨hne, hsplit⟩
    have hrest : ∀ x ∈ ds, DiffLineInv x :=
      fun x hx => hds x (List.mem_cons_of_mem d hx)
    rcases hsplit with hno | ⟨u, hu, hnu, hune⟩
    · rw [List.map_cons, List.flatten_cons, splitOnCh_of_not_mem hno]
      cases d with
      | nil => exact absurd rfl hne
      | cons c t =>
        rw [show ([c :: t] : List (List Char)) ++ (ds.map (splitOnCh '\n')).flatten
          = (c :: t) :: (ds.map (splitOnCh '\n')).flatten from rfl,
          show reconstructLines ((c :: t) :: (ds.map (splitOnCh '\n')).flatten) =
            reconLines (c :: t) ((ds.map (splitOnCh '\n')).flatten) from rfl,
          reconLines_flatten ds (c :: t) hrest]
    · rw [List.map_cons, List.flatten_cons, hu,
        show u ++ ['\n'] = u ++ '\n' :: [] from rfl, splitOnCh_append_cons,
        splitOnCh_of_not_mem hnu]
      cases u with
      | nil => exact absurd rfl hune
      | cons c t =>
        rw [show ([c :: t] : List (List Char)) ++ splitOnCh '\n' [] ++
            (ds.map (splitOnCh '\n')).flatten
          = (c :: t) :: [] :: (ds.map (splitOnCh '\n')).flatten from rfl,
          show reconstructLines ((c :: t) :: [] ::
              (ds.map (splitOnCh '\n')).flatten)
            = reconLines ((c :: t) ++ ['\n'])
                ((ds.map (splitOnCh '\n')).flatten) from rfl,
          reconLines_flatten ds ((c :: t) ++ ['\n']) hrest, ← hu]

/- ------------------------------------------------------------------ -/
/- The rendered diff lines satisfy the line invariant.                 -/
/- ------------------------------------------------------------------ -/

theorem diffLineInv_mkHunkHdr (s0 alen blen : Nat) :
    DiffLineInv (mkHunkHdr s0 alen blen) := by
  refine ⟨?_, Or.inl (mkHunkHdr_no_nl s0 alen blen)⟩
  unfold mkHunkHdr
  exact List.cons_ne_nil _ _

theorem diffLineInv_prefixed {pc : Char} (hpc : pc ≠ '\n') {l : List Char}
    (hl : LineInv l) : DiffLineInv (pc :: l) := by
  refine ⟨List.cons_ne_nil pc l, ?_⟩
  rcases hl with ⟨t, ht, hnt⟩ | hno
  · refine Or.inr ⟨pc :: t, by rw [ht]; rfl, ?_, List.cons_ne_nil pc t⟩
    intro hm
    rcases List.mem_cons.mp hm with h | h
    · exact hpc h.symm
    · exact hnt h
  · refine Or.inl ?_
    intro hm
    rcases List.mem_cons.mp hm with h | h
    · exact hpc h.symm
    · exact hno h

theorem diffLineInv_hunkBody {cpre da db cpost : List (List Char)}
    (h1 : ∀ l ∈ cpre, LineInv l) (h2 : ∀ l ∈ da, LineInv l)
    (h3 : ∀ l ∈ db, LineInv l) (h4 : ∀ l ∈ cpost, LineInv l) :
    ∀ d ∈ hunkBody cpre da db cpost, DiffLineInv d := by
  intro d hd
  unfold hunkBody at hd
  rcases List.mem_append.mp hd with hd1 | hdD
  · rcases List.mem_append.mp hd1 with hd2 | hdC
    · rcases List.mem_append.mp hd2 with hdA | hdB
      · rcases List.mem_map.mp hdA with ⟨l, hl, rfl⟩
        exact diffLineInv_prefixed (by decide) (h1 l hl)
      · rcases List.mem_map.mp hdB with ⟨l, hl, rfl⟩
        exact diffLineInv_prefixed (by decide) (h2 l hl)
    · rcases List.mem_map.mp hdC with ⟨l, hl, rfl⟩
      exact diffLineInv_prefixed (by decide) (h3 l hl)
  · rcases List.mem_map.mp hdD with ⟨l, hl, rfl⟩
    exact diffLineInv_prefixed (by decide) (h4 l hl)

theorem lineInv_comPre {a b : List (List Char)} (hA : ∀ l ∈ a, LineInv l) :
    ∀ l ∈ comPre a b, LineInv l := by
  intro l hl
  refine hA l ?_
  rw [← comPre_append a b]
  exact List.mem_append_left _ hl

theorem lineInv_diffQ {a b : List (List Char)} (hA : ∀ l ∈ a, LineInv l) :
    ∀ l ∈ diffQ a b, LineInv l := by
  intro l hl
  refine hA l ?_
  rw [← decompA a b]
  exact List.mem_append_right _ (List.mem_append_right _ hl)

theorem lineInv_diffMidA {a b : List (List Char)} (hA : ∀ l ∈ a, LineInv l) :
    ∀ l ∈ diffMidA a b, LineInv l := by
  intro l hl
  refine hA l ?_
  rw [← decompA a b]
  exact List.mem_append_right _ (List.mem_append_left _ hl)

theorem lineInv_diffMidB {a b : List (List Char)} (hB : ∀ l ∈ b, LineInv l) :
    ∀ l ∈ diffMidB a b, LineInv l := by
  intro l hl
  refine hB l ?_
  rw [← decompB a b]
  exact List.mem_append_right _ (List.mem_append_left _ hl)

/- ------------------------------------------------------------------ -/
/- The round trip: applying a rendered diff to the original buffer     -/
/- reproduces the modified buffer.                                     -/
/- ------------------------------------------------------------------ -/

theorem unifiedDiff_eq_nil_iff (a b : List (List Char)) (lblA lblB : List Char) :
    unifiedDiff a b lblA lblB = [] ↔ a = b := by
  constructor
  · intro h
    by_contra hne
    rw [show unifiedDiff a b lblA lblB =
      ('-' :: '-' :: '-' :: ' ' :: lblA) ::
        ('+' :: '+' :: '+' :: ' ' :: lblB) ::
          mkHunkHdr ((comPre a b).length - min 3 (comPre a b).length)
              (min 3 (comPre a b).length + (diffMidA a b).length +
                ((diffQ a b).take 3).length)
              (min 3 (comPre a b).length + (diffMidB a b).length +
                ((diffQ a b).take 3).length) ::
            hunkBody ((comPre a b).drop
                ((comPre a b).length - min 3 (comPre a b).length))
              (diffMidA a b) (diffMidB a b) ((diffQ a b).take 3) from by
      unfold unifiedDiff
      rw [if_neg hne]] at h
    exact List.cons_ne_nil _ _ h
  · intro h
    unfold unifiedDiff
    rw [if_pos h]

theorem unifiedDiff_length {a b : List (List Char)} (lblA lblB : List Char)
    (hne : a ≠ b) : 2 < (unifiedDiff a b lblA lblB).length := by
  rw [show unifiedDiff a b lblA lblB =
    ('-' :: '-' :: '-' :: ' ' :: lblA) ::
      ('+' :: '+' :: '+' :: ' ' :: lblB) ::
        mkHunkHdr ((comPre a b).length - min 3 (comPre a b).length)
            (min 3 (comPre a b).length + (diffMidA a b).length +
              ((diffQ a b).take 3).length)
            (min 3 (comPre a b).length + (diffMidB a b).length +
              ((diffQ a b).take 3).length) ::
          hunkBody ((comPre a b).drop
              ((comPre a b).length - min 3 (comPre a b).length))
            (diffMidA a b) (diffMidB a b) ((diffQ a b).take 3) from by
    unfold unifiedDiff
    rw [if_neg hne]]
  simp only [List.length_cons]
  omega

theorem applyUnified_unifiedDiff {a b : List (List Char)}
    (lblA lblB : List Char) (hA : ∀ l ∈ a, LineInv l) (hB : ∀ l ∈ b, LineInv l)
    (hne : a ≠ b) :
    applyUnified (joinNL ((unifiedDiff a b lblA lblB).drop 2)) a = b := by
  rw [show unifiedDiff a b lblA lblB =
    ('-' :: '-' :: '-' :: ' ' :: lblA) ::
      ('+' :: '+' :: '+' :: ' ' :: lblB) ::
        mkHunkHdr ((comPre a b).length - min 3 (comPre a b).length)
            (min 3 (comPre a b).length + (diffMidA a b).length +
              ((diffQ a b).take 3).length)
            (min 3 (comPre a b).length + (diffMidB a b).length +
              ((diffQ a b).take 3).length) ::
          hunkBody ((comPre a b).drop
              ((comPre a b).length - min 3 (comPre a b).length))
            (diffMidA a b) (diffMidB a b) ((diffQ a b).take 3) from by
    unfold unifiedDiff
    rw [if_neg hne]]
  rw [List.drop_succ_cons, List.drop_succ_cons, List.drop_zero]
  unfold applyUnified
  have hinv : ∀ d ∈ (mkHunkHdr ((comPre a b).length - min 3 (comPre a b).length)
      (min 3 (comPre a b).length + (diffMidA a b).length +
        ((diffQ a b).take 3).length)
      (min 3 (comPre a b).length + (diffMidB a b).length +
        ((diffQ a b).take 3).length) ::
    hunkBody ((comPre a b).drop
        ((comPre a b).length - min 3 (comPre a b).length))
      (diffMidA a b) (diffMidB a b) ((diffQ a b).take 3)), DiffLineInv d := by
    intro d hd
    rcases List.mem_cons.mp hd with h | h
    · subst h
      exact diffLineInv_mkHunkHdr _ _ _
    · refine diffLineInv_hunkBody ?_ ?_ ?_ ?_ d h
      · exact fun l hl => lineInv_comPre hA l (List.drop_subset _ _ hl)
      · exact lineInv_diffMidA hA
      · exact lineInv_diffMidB hB
      · exact fun l hl => lineInv_diffQ hA l (List.take_subset _ _ hl)
  rw [reconstructLines_joinNL _ (List.cons_ne_nil _ _) hinv]
  have hrender := applyHunks_render (comPre a b) (diffMidA a b) (diffMidB a b)
    (diffQ a b)
  rw [decompA a b, decompB a b] at hrender
  exact hrender

theorem applyUnified_noChanges (orig : List (List Char)) :
    applyUnified noChangesMsg orig = orig := by
  unfold applyUnified
  rw [splitOnCh_of_not_mem (by decide)]
  rw [show reconstructLines [noChangesMsg] = [noChangesMsg] from rfl]
  rw [show noChangesMsg = 'N' :: "o changes detected".toList from rfl]
  rw [show applyHunks ['N' :: "o changes detected".toList] 0 orig
      = if ('N' = '@') then
          ((orig.drop 0).take (parseHunkStart ('N' :: "o changes detected".toList)
            - 0)) ++ applyHunks [] (parseHunkStart
              ('N' :: "o changes detected".toList)) orig
        else if ('N' = ' ') then
          "o changes detected".toList :: applyHunks [] (0 + 1) orig
        else if ('N' = '-') then applyHunks [] (0 + 1) orig
        else if ('N' = '+') then
          "o changes detected".toList :: applyHunks [] 0 orig
        else applyHunks [] 0 orig
    from rfl]
  rw [if_neg (by decide), if_neg (by decide), if_neg (by decide),
    if_neg (by decide)]
  exact List.drop_zero orig

/- ------------------------------------------------------------------ -/
/- Storage and commit-phase helper facts.                              -/
/- ------------------------------------------------------------------ -/

theorem readFileS_ok {σ : Storage} {path : String} {c : List Char}
    (hf : σ.files path = some c) (hr : σ.readOk path = true) :
    readFileS σ path = Except.ok c := by
  unfold readFileS
  rw [hf, hr]
  rfl

theorem readFileS_ok_inv {σ : Storage} {path : String} {c : List Char}
    (h : readFileS σ path = Except.ok c) : σ.files path = some c := by
  unfold readFileS at h
  cases hf : σ.files path with
  | none =>
    rw [hf] at h
    exact absurd h (by simp)
  | some c2 =>
    rw [hf] at h
    cases hr : σ.readOk path <;> rw [hr] at h
    · exact absurd h (by simp)
    · simp only [if_true] at h
      exact congrArg some (Except.ok.inj h)

theorem writeFileS_ok {σ : Storage} {path : String} (c : List Char)
    (hw : σ.writeOk path = true) :
    writeFileS σ path c = Except.ok
      { σ with files := fun p => if p = path then some c else σ.files p } := by
  unfold writeFileS
  rw [hw]
  rfl

theorem commitPhase_dry_state (σ : Storage) (path : String) (s : Int)
    (nc : List Char) (e : Option Int) (orig : List (List Char)) (op : String) :
    (commitPhase σ path s nc e true orig op).2 = σ := rfl

theorem commitPhase_success {σ : Storage} {path : String} (s : Int)
    (nc : List Char) (e : Option Int) (dry : Bool) (orig : List (List Char))
    (op : String) (hw : σ.writeOk path = true) :
    (commitPhase σ path s nc e dry orig op).1.success = true := by
  unfold commitPhase
  cases dry
  · rw [if_neg (by simp), writeFileS_ok _ hw]
  · rfl

theorem commitPhase_diff {σ : Storage} {path : String} (s : Int)
    (nc : List Char) (e : Option Int) (dry : Bool) (orig : List (List Char))
    (op : String) (hw : σ.writeOk path = true) :
    (commitPhase σ path s nc e dry orig op).1.diff =
      some (diffOutputOf path orig (editedLines orig s nc e)) := by
  unfold commitPhase
  cases dry
  · rw [if_neg (by simp), writeFileS_ok _ hw]
  · rfl

theorem commitPhase_write_state {σ : Storage} {path : String} (s : Int)
    (nc : List Char) (e : Option Int) (orig : List (List Char)) (op : String)
    (hw : σ.writeOk path = true) :
    (commitPhase σ path s nc e false orig op).2 =
      { σ with files := fun p =>
          if p = path then some (editedLines orig s nc e).flatten
          else σ.files p } := by
  unfold commitPhase
  rw [if_neg (by simp), writeFileS_ok _ hw]

theorem commitPhase_frame (σ : Storage) (path : String) (s : Int)
    (nc : List Char) (e : Option Int) (dry : Bool) (orig : List (List Char))
    (op : String) :
    (dry = true → (commitPhase σ path s nc e dry orig op).2 = σ) ∧
    ((commitPhase σ path s nc e dry orig op).1.success = false →
      (commitPhase σ path s nc e dry orig op).2 = σ) ∧
    (∀ p, (commitPhase σ path s nc e dry orig op).2.files p ≠ σ.files p →
      dry = false ∧ (commitPhase σ path s nc e dry orig op).1.success = true) := by
  unfold commitPhase
  cases dry
  · rw [if_neg (by simp)]
    cases hw : σ.writeOk path
    · rw [show writeFileS σ path (editedLines orig s nc e).flatten =
        Except.error ("WriteError: " ++ path) from by unfold writeFileS; rw [hw]; rfl]
      exact ⟨fun h => absurd h (by simp), fun _ => rfl, fun p hp => absurd rfl hp⟩
    · rw [writeFileS_ok _ hw]
      refine ⟨fun h => absurd h (by simp), fun h => absurd h (by simp),
        fun p hp => ⟨rfl, rfl⟩⟩
  · exact ⟨fun _ => rfl, fun h => absurd h (by simp), fun p hp => absurd rfl hp⟩

theorem commitPhase_files (σ : Storage) (path : String) (s : Int)
    (nc : List Char) (e : Option Int) (dry : Bool) (orig : List (List Char))
    (op : String) :
    ∀ p, (commitPhase σ path s nc e dry orig op).2.files p = σ.files p ∨
      (p = path ∧ (commitPhase σ path s nc e dry orig op).2.files p =
        some (editedLines orig s nc e).flatten) := by
  intro p
  unfold commitPhase
  cases dry
  · rw [if_neg (by simp)]
    cases hw : σ.writeOk path
    · rw [show writeFileS σ path (editedLines orig s nc e).flatten =
        Except.error ("WriteError: " ++ path) from by unfold writeFileS; rw [hw]; rfl]
      exact Or.inl rfl
    · rw [writeFileS_ok _ hw]
      by_cases hp : p = path
      · refine Or.inr ⟨hp, ?_⟩
        show (if p = path then some (editedLines orig s nc e).flatten
          else σ.files p) = _
        rw [if_pos hp]
      · refine Or.inl ?_
        show (if p = path then some (editedLines orig s nc e).flatten
          else σ.files p) = _
        rw [if_neg hp]
  · exact Or.inl rfl

theorem commitPhase_error_isSome (σ : Storage) (path : String) (s : Int)
    (nc : List Char) (e : Option Int) (dry : Bool) (orig : List (List Char))
    (op : String)
    (h : (commitPhase σ path s nc e dry orig op).1.success = false) :
    ((commitPhase σ path s nc e dry orig op).1.error).isSome = true ∧
    ((commitPhase σ path s nc e dry orig op).1.message).isSome = true := by
  unfold commitPhase at h ⊢
  cases dry
  · rw [if_neg (by simp)] at h ⊢
    cases hw : σ.writeOk path
    · rw [show writeFileS σ path (editedLines orig s nc e).flatten =
        Except.error ("WriteError: " ++ path) from by unfold writeFileS; rw [hw]; rfl]
      exact ⟨rfl, rfl⟩
    · rw [writeFileS_ok _ hw] at h
      exact absurd h (by simp)
  · exact absurd h (by simp)

/- ------------------------------------------------------------------ -/
/- Facts about the reported diff output.                               -/
/- ------------------------------------------------------------------ -/

theorem diffOutputOf_eq (path : String) (orig modified : List (List Char)) :
    diffOutputOf path orig modified =
      if orig = modified then noChangesMsg
      else joinNL ((unifiedDiff orig modified
        (path.toList ++ (" (before)").toList)
        (path.toList ++ (" (after)").toList)).drop 2) := by
  unfold diffOutputOf
  by_cases h : orig = modified
  · rw [if_pos h, (unifiedDiff_eq_nil_iff orig modified _ _).mpr h,
      if_neg (by simp)]
  · rw [if_pos (unifiedDiff_length _ _ h), if_neg h]

theorem joinNL_cons_head (c : Char) (t : List Char) (xs : List (List Char)) :
    ∃ r, joinNL ((c :: t) :: xs) = c :: r := by
  cases xs with
  | nil => exact ⟨t, rfl⟩
  | cons y ys => exact ⟨t ++ '\n' :: joinNL (y :: ys), rfl⟩

theorem diffOutputOf_noChanges_iff (path : String)
    (orig modified : List (List Char)) :
    diffOutputOf path orig modified = noChangesMsg ↔ orig = modified := by
  rw [diffOutputOf_eq]
  by_cases h : orig = modified
  · rw [if_pos h]
    exact ⟨fun _ => h, fun _ => rfl⟩
  · rw [if_neg h]
    constructor
    · intro hEq
      exfalso
      rw [show unifiedDiff orig modified (path.toList ++ (" (before)").toList)
          (path.toList ++ (" (after)").toList) =
        ('-' :: '-' :: '-' :: ' ' :: (path.toList ++ (" (before)").toList)) ::
          ('+' :: '+' :: '+' :: ' ' :: (path.toList ++ (" (after)").toList)) ::
            mkHunkHdr ((comPre orig modified).length -
                min 3 (comPre orig modified).length)
                (min 3 (comPre orig modified).length +
                  (diffMidA orig modified).length +
                  ((diffQ orig modified).take 3).length)
                (min 3 (comPre orig modified).length +
                  (diffMidB orig modified).length +
                  ((diffQ orig modified).take 3).length) ::
              hunkBody ((comPre orig modified).drop
                  ((comPre orig modified).length -
                    min 3 (comPre orig modified).length))
                (diffMidA orig modified) (diffMidB orig modified)
                ((diffQ orig modified).take 3) from by
        unfold unifiedDiff
        rw [if_neg h]] at hEq
      rw [List.drop_succ_cons, List.drop_succ_cons, List.drop_zero] at hEq
      obtain ⟨r, hr⟩ := joinNL_cons_head '@'
        ('@' :: ' ' :: '-' ::
          (formatRange ((comPre orig modified).length -
              min 3 (comPre orig modified).length)
            (min 3 (comPre orig modified).length +
              (diffMidA orig modified).length +
              ((diffQ orig modified).take 3).length) ++ ' ' :: '+' ::
            (formatRange ((comPre orig modified).length -
                min 3 (comPre orig modified).length)
              (min 3 (comPre orig modified).length +
                (diffMidB orig modified).length +
                ((diffQ orig modified).take 3).length) ++ [' ', '@', '@'])))
        (hunkBody ((comPre orig modified).drop
            ((comPre orig modified).length -
              min 3 (comPre orig modified).length))
          (diffMidA orig modified) (diffMidB orig modified)
          ((diffQ orig modified).take 3))
      rw [show (mkHunkHdr ((comPre orig modified).length -
            min 3 (comPre orig modified).length)
            (min 3 (comPre orig modified).length +
              (diffMidA orig modified).length +
              ((diffQ orig modified).take 3).length)
            (min 3 (comPre orig modified).length +
              (diffMidB orig modified).length +
              ((diffQ orig modified).take 3).length)) = '@' ::
          ('@' :: ' ' :: '-' ::
            (formatRange ((comPre orig modified).length -
                min 3 (comPre orig modified).length)
              (min 3 (comPre orig modified).length +
                (diffMidA orig modified).length +
                ((diffQ orig modified).take 3).length) ++ ' ' :: '+' ::
              (formatRange ((comPre orig modified).length -
                  min 3 (comPre orig modified).length)
                (min 3 (comPre orig modified).length +
                  (diffMidB orig modified).length +
                  ((diffQ orig modified).take 3).length) ++ [' ', '@', '@'])))
        from rfl] at hEq
      rw [hr, show noChangesMsg = 'N' :: ("o changes detected").toList from rfl]
        at hEq
      injection hEq with h1 h2
      exact absurd h1 (by decide)
    · intro hEq
      exact absurd hEq h

theorem applyUnified_diffOutputOf {orig modified : List (List Char)}
    (path : String) (hO : ∀ l ∈ orig, LineInv l)
    (hM : ∀ l ∈ modified, LineInv l) :
    applyUnified (diffOutputOf path orig modified) orig = modified := by
  rw [diffOutputOf_eq]
  by_cases h : orig = modified
  · rw [if_pos h, applyUnified_noChanges]
    exact h
  · rw [if_neg h]
    exact applyUnified_unifiedDiff _ _ hO hM h

theorem splice_append (orig repl : List (List Char)) :
    splice orig orig.length orig.length repl = orig ++ repl := by
  unfold splice
  rw [List.take_length, List.drop_length, List.append_nil]

/- ------------------------------------------------------------------ -/
/- Branch characterizations of replace_lines.                          -/
/- ------------------------------------------------------------------ -/

theorem replace_lines_readErr {σ : Storage} {path : String} {err : String}
    (s : Int) (nc : List Char) (e : Option Int) (dry : Bool)
    (hread : readFileS σ path = Except.error err) :
    replace_lines σ path s nc e dry =
      ({ success := false, message := some ("Error processing " ++ path),
         error := some err, diff := none, dry_run := none }, σ) := by
  unfold replace_lines
  rw [hread]

theorem replace_lines_rangeErr {σ : Storage} {path : String} {c : List Char}
    (s : Int) (nc : List Char) (e : Option Int) (dry : Bool)
    (hread : readFileS σ path = Except.ok c)
    (hcond : s < 1 ∨ ((readlines c).length : Int) + 1 < s) :
    replace_lines σ path s nc e dry =
      ({ success := false, message := none,
         error := some (rangeStartMsg s (readlines c).length),
         diff := none, dry_run := none }, σ) := by
  unfold replace_lines
  rw [hread]
  simp only []
  rw [if_pos hcond]

theorem replace_lines_endErr {σ : Storage} {path : String} {c : List Char}
    (s ee : Int) (nc : List Char) (dry : Bool)
    (hread : readFileS σ path = Except.ok c)
    (hcond : ¬(s < 1 ∨ ((readlines c).length : Int) + 1 < s))
    (hcond2 : ee < s ∨ ((readlines c).length : Int) < ee) :
    replace_lines σ path s nc (some ee) dry =
      ({ success := false, message := none,
         error := some (rangeEndMsg ee s (readlines c).length),
         diff := none, dry_run := none }, σ) := by
  unfold replace_lines
  rw [hread]
  simp only []
  rw [if_neg hcond, if_pos hcond2]

theorem replace_lines_insert_branch {σ : Storage} {path : String}
    {c : List Char} (s : Int) (nc : List Char) (dry : Bool)
    (hread : readFileS σ path = Except.ok c)
    (hcond : ¬(s < 1 ∨ ((readlines c).length : Int) + 1 < s)) :
    replace_lines σ path s nc none dry =
      commitPhase σ path s nc none dry (readlines c) "insert" := by
  unfold replace_lines
  rw [hread]
  simp only []
  rw [if_neg hcond]

theorem replace_lines_replace_branch {σ : Storage} {path : String}
    {c : List Char} (s ee : Int) (nc : List Char) (dry : Bool)
    (hread : readFileS σ path = Except.ok c)
    (hcond : ¬(s < 1 ∨ ((readlines c).length : Int) + 1 < s))
    (hcond2 : ¬(ee < s ∨ ((readlines c).length : Int) < ee)) :
    replace_lines σ path s nc (some ee) dry =
      commitPhase σ path s nc (some ee) dry (readlines c) "replace" := by
  unfold replace_lines
  rw [hread]
  simp only []
  rw [if_neg hcond, if_neg hcond2]

/- ------------------------------------------------------------------ -/
/- Claim theorems.                                                     -/
/- ------------------------------------------------------------------ -/

/-- C1, code bug: the newText line splitting of server.py lines 641-644
does not preserve newText when it ends with a terminator: the trailing
empty split fragment receives a terminator of its own, so the spliced
lines concatenate to newText plus an extra newline.  Replacing line 2 of
the file a, b, c (each newline-terminated) with the single terminated
line B commits a buffer with an extra blank line after B instead of the
specified result. -/
theorem replace_lines_trailing_newline_bug :
    newLines ("B\n".toList) = [['B', '\n'], ['\n']] ∧
    (newLines ("B\n".toList)).flatten ≠ "B\n".toList ∧
    (replace_lines (oneFile ("a\nb\nc\n".toList)) "f" 2 ("B\n".toList)
        (some 2) false).2.files "f" = some ("a\nB\n\nc\n".toList) ∧
    ("a\nB\n\nc\n".toList : List Char) ≠ "a\nB\nc\n".toList :=
  ⟨by decide, by decide, by decide, by decide⟩

/-- C2, counterexample: committing the insert of the bare line c at
start 2 into the two-line file a, b writes content whose read-back has
only two lines (the inserted fragment merged into the following line)
instead of the claimed three, and the original second line is gone. -/
theorem replace_lines_insert_merge_counterexample :
    (replace_lines (oneFile ("a\nb\n".toList)) "f" 2 ("c".toList) none
        false).2.files "f" = some ("a\ncb\n".toList) ∧
    (readlines ("a\ncb\n".toList)).length = 2 ∧
    ("b\n".toList : List Char) ∉ readlines ("a\ncb\n".toList) :=
  ⟨by decide, by decide, by decide⟩

/-- C2, amended: at the line-buffer level, a valid insert produces a
buffer of totalLines plus the number of entries of the code's split of
newText, with the entries before start and from start onward unchanged;
a valid replace produces totalLines minus (end - start + 1) plus that
number of entries, removing exactly the inclusive range. -/
theorem editedLines_splice_counts (orig : List (List Char)) (s : Int)
    (nc : List Char) (ee : Int) :
    ((1 ≤ s ∧ s ≤ (orig.length : Int) + 1) →
      ((editedLines orig s nc none).length =
          orig.length + (newLines nc).length ∧
        (editedLines orig s nc none).take (s - 1).toNat =
          orig.take (s - 1).toNat ∧
        (editedLines orig s nc none).drop
            ((s - 1).toNat + (newLines nc).length) =
          orig.drop (s - 1).toNat)) ∧
    ((1 ≤ s ∧ s ≤ ee ∧ ee ≤ (orig.length : Int)) →
      ((editedLines orig s nc (some ee)).length =
          orig.length - (ee - s + 1).toNat + (newLines nc).length ∧
        (editedLines orig s nc (some ee)).take (s - 1).toNat =
          orig.take (s - 1).toNat ∧
        (editedLines orig s nc (some ee)).drop
            ((s - 1).toNat + (newLines nc).length) =
          orig.drop ee.toNat)) := by
  constructor
  · rintro ⟨h1, h2⟩
    have hi : (s - 1).toNat ≤ orig.length := by omega
    refine ⟨?_, splice_take _ _ hi, splice_drop _ hi⟩
    rw [show editedLines orig s nc none =
      splice orig (s - 1).toNat (s - 1).toNat (newLines nc) from rfl,
      splice_length _ (le_refl _) hi]
    omega
  · rintro ⟨h1, h2, h3⟩
    have hi : (s - 1).toNat ≤ orig.length := by omega
    have hij : (s - 1).toNat ≤ ee.toNat := by omega
    have hj : ee.toNat ≤ orig.length := by omega
    refine ⟨?_, splice_take _ _ hi, splice_drop _ hi⟩
    rw [show editedLines orig s nc (some ee) =
      splice orig (s - 1).toNat ee.toNat (newLines nc) from rfl,
      splice_length _ hij hj]
    omega

/-- C2 witness: the amended insert property at a concrete input. -/
theorem editedLines_splice_counts_witness :
    (1 ≤ (2 : Int) ∧ (2 : Int) ≤ ((readlines ("a\nb\n".toList)).length : Int) + 1) ∧
    ((editedLines (readlines ("a\nb\n".toList)) 2 ("c".toList) none).length =
        (readlines ("a\nb\n".toList)).length + (newLines ("c".toList)).length ∧
      (editedLines (readlines ("a\nb\n".toList)) 2 ("c".toList) none).take
          ((2 : Int) - 1).toNat =
        (readlines ("a\nb\n".toList)).take ((2 : Int) - 1).toNat ∧
      (editedLines (readlines ("a\nb\n".toList)) 2 ("c".toList) none).drop
          (((2 : Int) - 1).toNat + (newLines ("c".toList)).length) =
        (readlines ("a\nb\n".toList)).drop ((2 : Int) - 1).toNat) :=
  ⟨by decide,
    (editedLines_splice_counts (readlines ("a\nb\n".toList)) 2 ("c".toList) 2).1
      (by decide)⟩

/-- C3: with a readable file, an edit call with end absent succeeds
exactly when 1 ≤ start ≤ totalLines + 1 (start = totalLines + 1 being the
append-insert), and any violating start fails carrying the start range
error. -/
theorem replace_lines_start_range (σ : Storage) (path : String) (s : Int)
    (nc : List Char) (dry : Bool) (c : List Char)
    (hf : σ.files path = some c) (hr : σ.readOk path = true)
    (hw : σ.writeOk path = true) :
    ((replace_lines σ path s nc none dry).1.success = true ↔
      (1 ≤ s ∧ s ≤ ((readlines c).length : Int) + 1)) ∧
    (¬(1 ≤ s ∧ s ≤ ((readlines c).length : Int) + 1) →
      (replace_lines σ path s nc none dry).1.error =
        some (rangeStartMsg s (readlines c).length)) ∧
    (∀ e2 : Option Int, ¬(1 ≤ s ∧ s ≤ ((readlines c).length : Int) + 1) →
      (replace_lines σ path s nc e2 dry).1.success = false) := by
  have hany : ∀ e2 : Option Int,
      ¬(1 ≤ s ∧ s ≤ ((readlines c).length : Int) + 1) →
      (replace_lines σ path s nc e2 dry).1.success = false := by
    intro e2 hbad
    have hcond : s < 1 ∨ ((readlines c).length : Int) + 1 < s := by omega
    rw [replace_lines_rangeErr s nc e2 dry (readFileS_ok hf hr) hcond]
  by_cases hcond : s < 1 ∨ ((readlines c).length : Int) + 1 < s
  · rw [replace_lines_rangeErr s nc none dry (readFileS_ok hf hr) hcond]
    refine ⟨?_, ?_, hany⟩
    · constructor
      · intro h
        exact absurd h (by simp)
      · intro h
        omega
    · intro _
      rfl
  · rw [replace_lines_insert_branch s nc dry (readFileS_ok hf hr) hcond]
    refine ⟨?_, ?_, hany⟩
    · constructor
      · intro _
        omega
      · intro _
        exact commitPhase_success s nc none dry (readlines c) "insert" hw
    · intro h
      exact absurd (by omega) h

/-- C3 witness: the success equivalence at a concrete readable file. -/
theorem replace_lines_start_range_witness :
    (replace_lines (oneFile ("a\n".toList)) "f" 2 [] none true).1.success = true
      ↔ (1 ≤ (2 : Int) ∧ (2 : Int) ≤
          ((readlines ("a\n".toList)).length : Int) + 1) :=
  (replace_lines_start_range (oneFile ("a\n".toList)) "f" 2 [] true
    ("a\n".toList) (by decide) (by decide) (by decide)).1

/-- C10: on an empty file every call with end present fails, and a call
with end absent succeeds exactly when start = 1. -/
theorem replace_lines_empty_file (σ : Storage) (path : String) (s : Int)
    (nc : List Char) (dry : Bool)
    (hf : σ.files path = some []) (hr : σ.readOk path = true)
    (hw : σ.writeOk path = true) :
    (∀ ee : Int, (replace_lines σ path s nc (some ee) dry).1.success = false) ∧
    ((replace_lines σ path s nc none dry).1.success = true ↔ s = 1) := by
  have hlen : readlines ([] : List Char) = [] := rfl
  constructor
  · intro ee
    by_cases hcond : s < 1 ∨ ((readlines ([] : List Char)).length : Int) + 1 < s
    · rw [replace_lines_rangeErr s nc (some ee) dry (readFileS_ok hf hr) hcond]
    · have hcond2 : ee < s ∨ ((readlines ([] : List Char)).length : Int) < ee := by
        rw [hlen] at hcond ⊢
        simp only [List.length_nil] at hcond ⊢
        omega
      rw [replace_lines_endErr s ee nc dry (readFileS_ok hf hr) hcond hcond2]
  · constructor
    · intro h
      by_cases hcond : s < 1 ∨ ((readlines ([] : List Char)).length : Int) + 1 < s
      · rw [replace_lines_rangeErr s nc none dry (readFileS_ok hf hr) hcond] at h
        exact absurd h (by simp)
      · rw [hlen] at hcond
        simp only [List.length_nil] at hcond
        omega
    · intro h
      subst h
      have hcond : ¬((1 : Int) < 1 ∨
          ((readlines ([] : List Char)).length : Int) + 1 < 1) := by
        rw [hlen]
        simp
      rw [replace_lines_insert_branch 1 nc dry (readFileS_ok hf hr) hcond]
      exact commitPhase_success 1 nc none dry (readlines []) "insert" hw

/-- C10 witness: the insert equivalence on a concrete empty file. -/
theorem replace_lines_empty_file_witness :
    (∀ ee : Int, (replace_lines (oneFile []) "f" 2 ("x".toList) (some ee)
      false).1.success = false) ∧
    ((replace_lines (oneFile []) "f" 2 ("x".toList) none false).1.success = true
      ↔ (2 : Int) = 1) :=
  replace_lines_empty_file (oneFile []) "f" 2 ("x".toList) false
    (by decide) (by decide) (by decide)

theorem readFileS_notFound {σ : Storage} {path : String}
    (hf : σ.files path = none) :
    readFileS σ path = Except.error ("FileNotFoundError: " ++ path) := by
  unfold readFileS
  rw [hf]

theorem readFileS_unreadable {σ : Storage} {path : String} {c : List Char}
    (hf : σ.files path = some c) (hr : σ.readOk path = false) :
    readFileS σ path = Except.error ("ReadError: " ++ path) := by
  unfold readFileS
  rw [hf, hr]
  rfl

theorem commitPhase_writefail {σ : Storage} {path : String} (s : Int)
    (nc : List Char) (e : Option Int) (orig : List (List Char)) (op : String)
    (hw : σ.writeOk path = false) :
    (commitPhase σ path s nc e false orig op).1 =
      { success := false, message := some ("Error processing " ++ path),
        error := some ("WriteError: " ++ path), diff := none,
        dry_run := none } := by
  unfold commitPhase
  rw [if_neg (by simp)]
  rw [show writeFileS σ path (editedLines orig s nc e).flatten =
    Except.error ("WriteError: " ++ path) from by unfold writeFileS; rw [hw]; rfl]

theorem lineInv_editedLines (orig : List (List Char)) (s : Int)
    (nc : List Char) (e : Option Int) (horig : ∀ l ∈ orig, LineInv l) :
    ∀ l ∈ editedLines orig s nc e, LineInv l := by
  intro l hl
  cases e with
  | none =>
    have hl2 : l ∈ splice orig (s - 1).toNat (s - 1).toNat (newLines nc) := hl
    rcases mem_splice hl2 with h | h
    · exact horig l h
    · exact lineInv_newLines l h
  | some ee =>
    have hl2 : l ∈ splice orig (s - 1).toNat ee.toNat (newLines nc) := hl
    rcases mem_splice hl2 with h | h
    · exact horig l h
    · exact lineInv_newLines l h

theorem replace_lines_success_diff {σ : Storage} {path : String}
    {c : List Char} (s : Int) (nc : List Char) (e : Option Int) (dry : Bool)
    (hread : readFileS σ path = Except.ok c) (hw : σ.writeOk path = true)
    (hsucc : (replace_lines σ path s nc e dry).1.success = true) :
    (replace_lines σ path s nc e dry).1.diff =
      some (diffOutputOf path (readlines c)
        (editedLines (readlines c) s nc e)) := by
  by_cases hcond : s < 1 ∨ ((readlines c).length : Int) + 1 < s
  · rw [replace_lines_rangeErr s nc e dry hread hcond] at hsucc
    exact absurd hsucc (by simp)
  · cases e with
    | none =>
      rw [replace_lines_insert_branch s nc dry hread hcond]
      exact commitPhase_diff s nc none dry (readlines c) "insert" hw
    | some ee =>
      by_cases hcond2 : ee < s ∨ ((readlines c).length : Int) < ee
      · rw [replace_lines_endErr s ee nc dry hread hcond hcond2] at hsucc
        exact absurd hsucc (by simp)
      · rw [replace_lines_replace_branch s ee nc dry hread hcond hcond2]
        exact commitPhase_diff s nc (some ee) dry (readlines c) "replace" hw

/-- C4: a dry-run call returns the storage unchanged, and a file entry
changes only through a non-dry-run call that reports success. -/
theorem replace_lines_dry_frame (σ : Storage) (path : String) (s : Int)
    (nc : List Char) (e : Option Int) (dry : Bool) :
    (dry = true → (replace_lines σ path s nc e dry).2 = σ) ∧
    (∀ p, (replace_lines σ path s nc e dry).2.files p ≠ σ.files p →
      dry = false ∧ (replace_lines σ path s nc e dry).1.success = true) := by
  cases hread : readFileS σ path with
  | error err =>
    rw [replace_lines_readErr s nc e dry hread]
    exact ⟨fun _ => rfl, fun p hp => absurd rfl hp⟩
  | ok c =>
    by_cases hcond : s < 1 ∨ ((readlines c).length : Int) + 1 < s
    · rw [replace_lines_rangeErr s nc e dry hread hcond]
      exact ⟨fun _ => rfl, fun p hp => absurd rfl hp⟩
    · cases e with
      | none =>
        rw [replace_lines_insert_branch s nc dry hread hcond]
        have hcf := commitPhase_frame σ path s nc none dry (readlines c) "insert"
        exact ⟨hcf.1, hcf.2.2⟩
      | some ee =>
        by_cases hcond2 : ee < s ∨ ((readlines c).length : Int) < ee
        · rw [replace_lines_endErr s ee nc dry hread hcond hcond2]
          exact ⟨fun _ => rfl, fun p hp => absurd rfl hp⟩
        · rw [replace_lines_replace_branch s ee nc dry hread hcond hcond2]
          have hcf := commitPhase_frame σ path s nc (some ee) dry (readlines c)
            "replace"
          exact ⟨hcf.1, hcf.2.2⟩

/-- C4 witness: a concrete dry-run call leaves the storage untouched. -/
theorem replace_lines_dry_frame_witness :
    (replace_lines (oneFile ("a\n".toList)) "f" 1 ("x".toList) none true).2 =
      oneFile ("a\n".toList) :=
  (replace_lines_dry_frame (oneFile ("a\n".toList)) "f" 1 ("x".toList)
    none true).1 rfl

/-- C5: a failed call leaves the storage untouched, and any call leaves
every file unchanged except possibly the edited one, which is rewritten
in full with the final buffer. -/
theorem replace_lines_no_partial_write (σ : Storage) (path : String)
    (s : Int) (nc : List Char) (e : Option Int) (dry : Bool) :
    ((replace_lines σ path s nc e dry).1.success = false →
      (replace_lines σ path s nc e dry).2 = σ) ∧
    (∀ p, (replace_lines σ path s nc e dry).2.files p = σ.files p ∨
      (p = path ∧ ∃ c0, σ.files path = some c0 ∧
        (replace_lines σ path s nc e dry).2.files p =
          some (editedLines (readlines c0) s nc e).flatten)) := by
  cases hread : readFileS σ path with
  | error err =>
    rw [replace_lines_readErr s nc e dry hread]
    exact ⟨fun _ => rfl, fun p => Or.inl rfl⟩
  | ok c =>
    have hf : σ.files path = some c := readFileS_ok_inv hread
    by_cases hcond : s < 1 ∨ ((readlines c).length : Int) + 1 < s
    · rw [replace_lines_rangeErr s nc e dry hread hcond]
      exact ⟨fun _ => rfl, fun p => Or.inl rfl⟩
    · cases e with
      | none =>
        rw [replace_lines_insert_branch s nc dry hread hcond]
        refine ⟨(commitPhase_frame σ path s nc none dry (readlines c)
          "insert").2.1, ?_⟩
        intro p
        rcases commitPhase_files σ path s nc none dry (readlines c) "insert" p
          with h | ⟨hp, h2⟩
        · exact Or.inl h
        · exact Or.inr ⟨hp, c, hf, h2⟩
      | some ee =>
        by_cases hcond2 : ee < s ∨ ((readlines c).length : Int) < ee
        · rw [replace_lines_endErr s ee nc dry hread hcond hcond2]
          exact ⟨fun _ => rfl, fun p => Or.inl rfl⟩
        · rw [replace_lines_replace_branch s ee nc dry hread hcond hcond2]
          refine ⟨(commitPhase_frame σ path s nc (some ee) dry (readlines c)
            "replace").2.1, ?_⟩
          intro p
          rcases commitPhase_files σ path s nc (some ee) dry (readlines c)
            "replace" p with h | ⟨hp, h2⟩
          · exact Or.inl h
          · exact Or.inr ⟨hp, c, hf, h2⟩

/-- C5 witness: a concrete failing call (start 0) leaves the storage
untouched. -/
theorem replace_lines_no_partial_write_witness :
    (replace_lines (oneFile ("a\n".toList)) "f" 0 [] none false).2 =
      oneFile ("a\n".toList) :=
  (replace_lines_no_partial_write (oneFile ("a\n".toList)) "f" 0 [] none
    false).1 (by decide)

/-- C6, counterexample: a range violation (start 0) yields a structured
failure whose message field is absent, though the claim requires every
failure to carry one. -/
theorem replace_lines_range_failure_no_message :
    (replace_lines (oneFile ("a\n".toList)) "f" 0 [] none false).1.success
      = false ∧
    (replace_lines (oneFile ("a\n".toList)) "f" 0 [] none false).1.message
      = none ∧
    (replace_lines (oneFile ("a\n".toList)) "f" 0 [] none false).1.error
      ≠ none :=
  ⟨by decide, by decide, by decide⟩

/-- C6, amended: every failure is returned as a structured result with
success false and an error field, none escaping as anything but a
returned result: a missing file, an unreadable file (permission or
encoding failure) and a write failure each produce success false with
both a message and an error field, while a start-range or end-range
violation produces success false with the corresponding range error and
no message field. -/
theorem replace_lines_structured_failure (σ : Storage) (path : String)
    (s : Int) (nc : List Char) (e : Option Int) (dry : Bool) :
    ((replace_lines σ path s nc e dry).1.success = false →
      ((replace_lines σ path s nc e dry).1.error).isSome = true) ∧
    (σ.files path = none →
      (replace_lines σ path s nc e dry).1.success = false ∧
      ((replace_lines σ path s nc e dry).1.message).isSome = true ∧
      ((replace_lines σ path s nc e dry).1.error).isSome = true) ∧
    (∀ c, σ.files path = some c → σ.readOk path = false →
      (replace_lines σ path s nc e dry).1.success = false ∧
      ((replace_lines σ path s nc e dry).1.message).isSome = true ∧
      ((replace_lines σ path s nc e dry).1.error).isSome = true) ∧
    (∀ c, readFileS σ path = Except.ok c →
      (s < 1 ∨ ((readlines c).length : Int) + 1 < s) →
      (replace_lines σ path s nc e dry).1.success = false ∧
      (replace_lines σ path s nc e dry).1.message = none ∧
      (replace_lines σ path s nc e dry).1.error =
        some (rangeStartMsg s (readlines c).length)) ∧
    (∀ c ee, readFileS σ path = Except.ok c → e = some ee →
      ¬(s < 1 ∨ ((readlines c).length : Int) + 1 < s) →
      (ee < s ∨ ((readlines c).length : Int) < ee) →
      (replace_lines σ path s nc e dry).1.success = false ∧
      (replace_lines σ path s nc e dry).1.message = none ∧
      (replace_lines σ path s nc e dry).1.error =
        some (rangeEndMsg ee s (readlines c).length)) ∧
    (∀ c, readFileS σ path = Except.ok c → σ.writeOk path = false →
      dry = false →
      ¬(s < 1 ∨ ((readlines c).length : Int) + 1 < s) →
      (∀ ee, e = some ee → ¬(ee < s ∨ ((readlines c).length : Int) < ee)) →
      (replace_lines σ path s nc e dry).1.success = false ∧
      ((replace_lines σ path s nc e dry).1.message).isSome = true ∧
      ((replace_lines σ path s nc e dry).1.error).isSome = true) := by
  refine ⟨?_, ?_, ?_, ?_, ?_, ?_⟩
  · intro hfail
    cases hread : readFileS σ path with
    | error err =>
      rw [replace_lines_readErr s nc e dry hread]
      rfl
    | ok c =>
      by_cases hcond : s < 1 ∨ ((readlines c).length : Int) + 1 < s
      · rw [replace_lines_rangeErr s nc e dry hread hcond]
        rfl
      · cases e with
        | none =>
          rw [replace_lines_insert_branch s nc dry hread hcond] at hfail ⊢
          exact (commitPhase_error_isSome σ path s nc none dry (readlines c)
            "insert" hfail).1
        | some ee =>
          by_cases hcond2 : ee < s ∨ ((readlines c).length : Int) < ee
          · rw [replace_lines_endErr s ee nc dry hread hcond hcond2]
            rfl
          · rw [replace_lines_replace_branch s ee nc dry hread hcond hcond2]
              at hfail ⊢
            exact (commitPhase_error_isSome σ path s nc (some ee) dry
              (readlines c) "replace" hfail).1
  · intro hnone
    rw [replace_lines_readErr s nc e dry (readFileS_notFound hnone)]
    exact ⟨rfl, rfl, rfl⟩
  · intro c hc hro
    rw [replace_lines_readErr s nc e dry (readFileS_unreadable hc hro)]
    exact ⟨rfl, rfl, rfl⟩
  · intro c hread hcond
    rw [replace_lines_rangeErr s nc e dry hread hcond]
    exact ⟨rfl, rfl, rfl⟩
  · intro c ee hread hee hcond hcond2
    subst hee
    rw [replace_lines_endErr s ee nc dry hread hcond hcond2]
    exact ⟨rfl, rfl, rfl⟩
  · intro c hread hwf hdry hcond hok2
    subst hdry
    cases e with
    | none =>
      rw [replace_lines_insert_branch s nc false hread hcond,
        commitPhase_writefail s nc none (readlines c) "insert" hwf]
      exact ⟨rfl, rfl, rfl⟩
    | some ee =>
      rw [replace_lines_replace_branch s ee nc false hread hcond (hok2 ee rfl),
        commitPhase_writefail s nc (some ee) (readlines c) "replace" hwf]
      exact ⟨rfl, rfl, rfl⟩

/-- C6 witness: a concrete end-range violation fails with the end range
error and no message field. -/
theorem replace_lines_structured_failure_witness :
    (replace_lines (oneFile ("a\n".toList)) "f" 1 [] (some 5) false).1.success
      = false ∧
    (replace_lines (oneFile ("a\n".toList)) "f" 1 [] (some 5) false).1.message
      = none ∧
    (replace_lines (oneFile ("a\n".toList)) "f" 1 [] (some 5) false).1.error =
      some (rangeEndMsg 5 1 (readlines ("a\n".toList)).length) :=
  (replace_lines_structured_failure (oneFile ("a\n".toList)) "f" 1 [] (some 5)
    false).2.2.2.2.1 ("a\n".toList) 5 rfl rfl (by decide) (by decide)

/-- C9, counterexample: appending a newline-terminated x after the bare
final line b writes the original text, the appended text, and an extra
blank line, so the written file is not simply the original with newText
appended. -/
theorem replace_lines_append_counterexample :
    (replace_lines (oneFile ("a\nb".toList)) "f" 3 ("x\n".toList) none
        false).2.files "f" = some ("a\nbx\n\n".toList) ∧
    ("a\nbx\n\n".toList : List Char) ≠ "a\nb".toList ++ "x\n".toList :=
  ⟨by decide, by decide⟩

/-- C9, amended: a committed insert at start = totalLines + 1 after a
bare final line writes the original content directly followed by the
code's split of newText, with no separating terminator (the first
inserted fragment merges onto the bare final line); when newText does
not end with a terminator this is exactly the original content with
newText appended. -/
theorem replace_lines_append_insert (σ : Storage) (path : String)
    (s : Int) (nc : List Char) (c0 : List Char)
    (hf : σ.files path = some c0) (hr : σ.readOk path = true)
    (hw : σ.writeOk path = true) (hbare : endsNL c0 = false)
    (hs : s = ((readlines c0).length : Int) + 1) :
    (replace_lines σ path s nc none false).2.files path =
      some (c0 ++ (newLines nc).flatten) ∧
    (endsNL nc = false →
      (replace_lines σ path s nc none false).2.files path =
        some (c0 ++ nc)) := by
  have hcond : ¬(s < 1 ∨ ((readlines c0).length : Int) + 1 < s) := by omega
  rw [replace_lines_insert_branch s nc false (readFileS_ok hf hr) hcond,
    commitPhase_write_state s nc none (readlines c0) "insert" hw]
  have hfiles : ({ σ with files := fun p => if p = path then some (editedLines (readlines c0) s nc none).flatten else σ.files p } : Storage).files path = some (editedLines (readlines c0) s nc none).flatten := by
    show (if path = path then some (editedLines (readlines c0) s nc none).flatten else σ.files path) = _
    rw [if_pos rfl]
  have hedit : editedLines (readlines c0) s nc none =
      readlines c0 ++ newLines nc := by
    rw [show editedLines (readlines c0) s nc none =
      splice (readlines c0) (s - 1).toNat (s - 1).toNat (newLines nc) from rfl]
    have hlen : (s - 1).toNat = (readlines c0).length := by omega
    rw [hlen, splice_append]
  constructor
  · rw [hfiles, hedit, List.flatten_append, readlines_flatten]
  · intro hnc
    rw [hfiles, hedit, List.flatten_append, readlines_flatten,
      newLines_flatten, hnc]
    rfl

/-- C9 witness: appending a bare x to a file with a bare final line
writes exactly the original content with x appended. -/
theorem replace_lines_append_insert_witness :
    (replace_lines (oneFile ("a\nb".toList)) "f" 3 ("x".toList) none
        false).2.files "f" = some ("a\nb".toList ++ "x".toList) :=
  (replace_lines_append_insert (oneFile ("a\nb".toList)) "f" 3 ("x".toList)
    ("a\nb".toList) (by decide) (by decide) (by decide) (by decide)
    (by decide)).2 (by decide)

/-- C7: on success the reported diff is the unified diff of the original
and modified line sequences with its two header lines stripped, and it is
the literal no-changes text exactly when the two sequences are equal. -/
theorem replace_lines_diff_shape (σ : Storage) (path : String) (s : Int)
    (nc : List Char) (e : Option Int) (dry : Bool) (c : List Char)
    (hf : σ.files path = some c) (hr : σ.readOk path = true)
    (hw : σ.writeOk path = true)
    (hsucc : (replace_lines σ path s nc e dry).1.success = true) :
    ((replace_lines σ path s nc e dry).1.diff = some noChangesMsg ↔
      readlines c = editedLines (readlines c) s nc e) ∧
    (readlines c ≠ editedLines (readlines c) s nc e →
      (replace_lines σ path s nc e dry).1.diff =
        some (joinNL ((unifiedDiff (readlines c)
          (editedLines (readlines c) s nc e)
          (path.toList ++ (" (before)").toList)
          (path.toList ++ (" (after)").toList)).drop 2))) := by
  have hdiff := replace_lines_success_diff s nc e dry (readFileS_ok hf hr)
    hw hsucc
  rw [hdiff]
  constructor
  · constructor
    · intro h
      exact (diffOutputOf_noChanges_iff path _ _).mp (Option.some.inj h)
    · intro h
      rw [(diffOutputOf_noChanges_iff path _ _).mpr h]
  · intro h
    rw [diffOutputOf_eq, if_neg h]

/-- C7 witness: replacing the bare final line with itself is reported as
no changes detected. -/
theorem replace_lines_diff_shape_witness :
    ((replace_lines (oneFile ("a".toList)) "f" 1 ("a".toList) (some 1)
        false).1.diff = some noChangesMsg ↔
      readlines ("a".toList) =
        editedLines (readlines ("a".toList)) 1 ("a".toList) (some 1)) :=
  (replace_lines_diff_shape (oneFile ("a".toList)) "f" 1 ("a".toList)
    (some 1) false ("a".toList) (by decide) (by decide) (by decide)
    (by decide)).1

/-- C8: applying the diff returned by a successful call to the original
content reproduces the modified content exactly, the same content a
committed call stores for the file. -/
theorem replace_lines_diff_roundtrip (σ : Storage) (path : String)
    (s : Int) (nc : List Char) (e : Option Int) (dry : Bool)
    (c0 : List Char) (d : List Char)
    (hf : σ.files path = some c0) (hr : σ.readOk path = true)
    (hw : σ.writeOk path = true)
    (hsucc : (replace_lines σ path s nc e dry).1.success = true)
    (hd : (replace_lines σ path s nc e dry).1.diff = some d) :
    applyUnifiedContent d c0 = (editedLines (readlines c0) s nc e).flatten ∧
    (replace_lines σ path s nc e false).2.files path =
      some ((editedLines (readlines c0) s nc e).flatten) := by
  have hread := readFileS_ok hf hr
  have hdiff := replace_lines_success_diff s nc e dry hread hw hsucc
  rw [hdiff] at hd
  have hdval : d = diffOutputOf path (readlines c0)
      (editedLines (readlines c0) s nc e) := (Option.some.inj hd).symm
  have hcond : ¬(s < 1 ∨ ((readlines c0).length : Int) + 1 < s) := by
    intro hcond
    rw [replace_lines_rangeErr s nc e dry hread hcond] at hsucc
    exact absurd hsucc (by simp)
  constructor
  · rw [hdval]
    unfold applyUnifiedContent
    rw [applyUnified_diffOutputOf path lineInv_readlines
      (lineInv_editedLines (readlines c0) s nc e lineInv_readlines)]
  · cases e with
    | none =>
      rw [replace_lines_insert_branch s nc false hread hcond,
        commitPhase_write_state s nc none (readlines c0) "insert" hw]
      show (if path = path then some (editedLines (readlines c0) s nc none).flatten else σ.files path) = _
      rw [if_pos rfl]
    | some ee =>
      by_cases hcond2 : ee < s ∨ ((readlines c0).length : Int) < ee
      · rw [replace_lines_endErr s ee nc dry hread hcond hcond2] at hsucc
        exact absurd hsucc (by simp)
      · rw [replace_lines_replace_branch s ee nc false hread hcond hcond2,
          commitPhase_write_state s nc (some ee) (readlines c0) "replace" hw]
        show (if path = path then some (editedLines (readlines c0) s nc (some ee)).flatten else σ.files path) = _
        rw [if_pos rfl]

/-- C8 witness: the diff of the concrete replace call replays on the
original content to the committed buffer. -/
theorem replace_lines_diff_roundtrip_witness :
    applyUnifiedContent
        ("@@ -1,3 +1,4 @@\n a\n\n-b\n\n+B\n\n+\n\n c\n".toList)
        ("a\nb\nc\n".toList) =
      (editedLines (readlines ("a\nb\nc\n".toList)) 2 ("B\n".toList)
        (some 2)).flatten :=
  (replace_lines_diff_roundtrip (oneFile ("a\nb\nc\n".toList)) "f" 2
    ("B\n".toList) (some 2) false ("a\nb\nc\n".toList)
    ("@@ -1,3 +1,4 @@\n a\n\n-b\n\n+B\n\n+\n\n c\n".toList)
    (by decide) (by decide) (by decide) (by decide) (by decide)).1

end Mcp
